import Mathlib

/-!
# VersionInfoFactory (library/VersionInfoFactory.cpp)

A shallow embedding of the symbol-table registry of DFHack: the record parser
`VersionInfoFactory::ParseVersion`, the loader `VersionInfoFactory::loadFile`, `clear`, and
the two fingerprint lookups, followed by theorems about them.

Conventions of the embedding.

* A `const char *` that may be null is an `Option String`.
* A C++ exception is `Except.error (Fault.thrown e)`. Passing a null pointer to `strtoul`
  is undefined behaviour; the embedding makes it the explicit outcome `Fault.nullDeref`.
* Output on `cerr` / `stderr` is not modelled.
* Machine integers are `Nat` reduced modulo `2 ^ bits`.
-/

set_option autoImplicit false

namespace DFHack

/-! ## The XML tree handed over by TinyXML -/

/-- Modelled from the spec: the element type of the TinyXML document tree (tinyxml.h lies
outside VersionInfoFactory.cpp). The spec describes the parser collaborator as producing a
"tree of elements with named attributes and ordered children"; `Value` is the tag. -/
inductive TiXmlElement where
  | mk (Value : String) (attributes : List (String × String))
      (children : List TiXmlElement) : TiXmlElement

namespace TiXmlElement

/-- Tag of the element, `TiXmlElement::Value()`. -/
def Value : TiXmlElement → String
  | mk v _ _ => v

/-- Attribute list of the element, in document order. -/
def attributes : TiXmlElement → List (String × String)
  | mk _ a _ => a

/-- Child elements in document order: the sequence visited by `FirstChildElement()` followed by
repeated `NextSiblingElement()`. -/
def children : TiXmlElement → List TiXmlElement
  | mk _ _ c => c

/-- Modelled from the spec: `TiXmlElement::Attribute(name)`, the value of the named attribute or
a null pointer when the element does not carry it. -/
def Attribute (e : TiXmlElement) (name : String) : Option String :=
  e.attributes.lookup name

end TiXmlElement

/-- Modelled from the spec: the outcome of `TiXmlDocument::LoadFile()` on the file at the given
path. Either the underlying parser failed (`loadOkay = false`, with its diagnostic), or the
document holds the top-level elements; the root is the first of them. -/
structure TiXmlDocument where
  loadOkay : Bool
  ErrorDesc : String
  ErrorId : Int
  ErrorRow : Int
  ErrorCol : Int
  elements : List TiXmlElement

/-- The element reached by `hDoc.FirstChildElement().Element()`, null when there is none. -/
def TiXmlDocument.FirstChildElement (doc : TiXmlDocument) : Option TiXmlElement :=
  doc.elements.head?

/-! ## Errors -/

/-- The exceptions of namespace `Error` that the factory throws (Error.h). -/
inductive Error where
  | SymbolsXmlParse (desc : String) (id row col : Int)
  | SymbolsXmlNoRoot
  | SymbolsXmlBadAttribute (attr : String)
  | SymbolsXmlUnderspecifiedEntry (entry : String)
  deriving DecidableEq, Repr

/-- Ways in which a call can fail to return normally. -/
inductive Fault where
  /-- A C++ exception propagates out of the call. -/
  | thrown (e : Error)
  /-- A null pointer was handed to `strtoul` / `strtoull` (undefined behaviour). -/
  | nullDeref
  deriving DecidableEq, Repr

/-! ## VersionInfo -/

/-- Operating system tag of a record (`OSType` in VersionInfo.h). -/
inductive OSType where
  | OS_WINDOWS
  | OS_LINUX
  | OS_APPLE
  | OS_BAD
  deriving DecidableEq, Repr

/-- Modelled from the spec: the build record `VersionInfo` (VersionInfo.h lies outside
VersionInfoFactory.cpp). Fields follow the spec's data model: name, OS, base address, the two
fingerprint collections, and the two name-to-address maps with unique keys. -/
structure VersionInfo where
  version : String
  OS : OSType
  base : Nat
  md5_list : List String
  PE_list : List Nat
  Addresses : List (String × Nat)
  VTables : List (String × Nat)
  deriving DecidableEq, Repr

/-- Modelled from the spec: assignment `m[key] = addr` on a map with unique keys; a later
definition of a key overwrites the earlier one. -/
def mapSet : List (String × Nat) → String → Nat → List (String × Nat)
  | [], key, addr => [(key, addr)]
  | (k, a) :: m, key, addr =>
    if k = key then (key, addr) :: m else (k, a) :: mapSet m key addr

/-- Modelled from the spec: lookup of a key in a name-to-address map. -/
def mapFind : List (String × Nat) → String → Option Nat
  | [], _ => none
  | (k, a) :: m, key => if k = key then some a else mapFind m key

namespace VersionInfo

/-- Modelled from the spec: the record `new VersionInfo()` creates, before the parser touches
it: no fingerprints, no addresses, unrecognized OS. The constructor lives in VersionInfo.h; the
base address it leaves in the record is the parameter `ctorBase`, which the spec's wording
fixes to the system default (`constructorSetsDefaultBase` below). -/
def new (ctorBase : Nat) : VersionInfo :=
  { version := "", OS := OSType.OS_BAD, base := ctorBase, md5_list := [], PE_list := [],
    Addresses := [], VTables := [] }

/-- Modelled from the spec: `setVersion`. -/
def setVersion (mem : VersionInfo) (v : String) : VersionInfo := { mem with version := v }

/-- Modelled from the spec: `setOS`. -/
def setOS (mem : VersionInfo) (os : OSType) : VersionInfo := { mem with OS := os }

/-- Modelled from the spec: `setBase`. -/
def setBase (mem : VersionInfo) (b : Nat) : VersionInfo := { mem with base := b }

/-- Modelled from the spec: `addMD5` records an additional content hash. -/
def addMD5 (mem : VersionInfo) (h : String) : VersionInfo :=
  { mem with md5_list := mem.md5_list ++ [h] }

/-- Modelled from the spec: `addPE` records an additional timestamp; timestamps have the type
`uintptr_t` of the argument of `getVersionInfoByPETimestamp`. -/
def addPE (mem : VersionInfo) (t : Nat) : VersionInfo :=
  { mem with PE_list := mem.PE_list ++ [t] }

/-- Modelled from the spec: `setAddress` stores into the globals map. -/
def setAddress (mem : VersionInfo) (key : String) (addr : Nat) : VersionInfo :=
  { mem with Addresses := mapSet mem.Addresses key addr }

/-- Modelled from the spec: `setVTable` stores into the vtables map. -/
def setVTable (mem : VersionInfo) (key : String) (addr : Nat) : VersionInfo :=
  { mem with VTables := mapSet mem.VTables key addr }

/-- Modelled from the spec: `hasMD5`, membership in the record's hash set. -/
def hasMD5 (mem : VersionInfo) (h : String) : Bool := decide (h ∈ mem.md5_list)

/-- Modelled from the spec: `hasPE`, membership in the record's timestamp set. -/
def hasPE (mem : VersionInfo) (t : Nat) : Bool := decide (t ∈ mem.PE_list)

end VersionInfo

/-! ## C library: `strtoul`, `strtoull`, `strtol` -/

/-- The characters `isspace` accepts in the "C" locale: space and the controls 9 to 13. -/
def isspace (c : Char) : Bool :=
  c.toNat = 32 || (9 ≤ c.toNat && c.toNat ≤ 13)

/-- Value of a character as a digit (`0-9`, then letters of either case from 10 on). -/
def digitVal (c : Char) : Option Nat :=
  if 48 ≤ c.toNat ∧ c.toNat ≤ 57 then some (c.toNat - 48)
  else if 97 ≤ c.toNat ∧ c.toNat ≤ 122 then some (c.toNat - 97 + 10)
  else if 65 ≤ c.toNat ∧ c.toNat ≤ 90 then some (c.toNat - 65 + 10)
  else none

/-- Whether the character is a digit of the given base. -/
def isDigitOf (base : Nat) (c : Char) : Bool :=
  match digitVal c with
  | some d => decide (d < base)
  | none => false

/-- Drop the leading white space. -/
def skipSpace : List Char → List Char
  | [] => []
  | c :: cs => if isspace c then skipSpace cs else c :: cs

/-- Read an optional sign: the flag is true for a minus. -/
def readSign : List Char → Bool × List Char
  | [] => (false, [])
  | c :: cs => if c.toNat = 45 then (true, cs) else if c.toNat = 43 then (false, cs) else (false, c :: cs)

/-- Base selection of the `strto*` family. With `base = 0` the base is 16 after a `0x` / `0X`
prefix, 8 after a leading `0`, and 10 otherwise; with `base = 16` the prefix is optional. The
prefix is consumed only when a hexadecimal digit follows it. -/
def readBase (base : Nat) : List Char → Nat × List Char
  | [] => (if base = 0 then 10 else base, [])
  | c :: cs =>
    if c.toNat = 48 then
      match cs with
      | x :: d :: rest =>
        if (base = 0 ∨ base = 16) ∧ (x.toNat = 120 ∨ x.toNat = 88) ∧ isDigitOf 16 d = true then
          (16, d :: rest)
        else (if base = 0 then 8 else base, c :: cs)
      | _ => (if base = 0 then 8 else base, c :: cs)
    else (if base = 0 then 10 else base, c :: cs)

/-- Accumulate the longest run of digits of the base, most significant first. -/
def readDigits (base : Nat) : Nat → List Char → Nat
  | acc, [] => acc
  | acc, c :: cs =>
    match digitVal c with
    | some d => if d < base then readDigits base (acc * base + d) cs else acc
    | none => acc

/-- Sign and exact magnitude of the subject sequence of a numeral, the part common to
`strtoul`, `strtoull` and `strtol`; magnitude 0 when there is no digit. -/
def strtoMagnitude (s : String) (base : Nat) : Bool × Nat :=
  let afterSign := readSign (skipSpace s.toList)
  let afterBase := readBase base afterSign.2
  (afterSign.1, readDigits afterBase.1 0 afterBase.2)

/-- The C function `strtoul(s, 0, base)` (and `strtoull`) for an unsigned type of `bits` bits: a
magnitude out of range gives the maximum value, a minus sign negates in the unsigned type. -/
def strtoul (bits : Nat) (s : String) (base : Nat) : Nat :=
  let r := strtoMagnitude s base
  if 2 ^ bits ≤ r.2 then 2 ^ bits - 1
  else if r.1 then (2 ^ bits - r.2) % 2 ^ bits
  else r.2

/-- The C function `strtol(s, 0, base)` for a signed `long` of `bits` bits: the result saturates
at `LONG_MIN` and `LONG_MAX`. -/
def strtol (bits : Nat) (s : String) (base : Nat) : Int :=
  let r := strtoMagnitude s base
  if r.1 then
    if 2 ^ (bits - 1) < r.2 then - (2 ^ (bits - 1) : Int) else - (r.2 : Int)
  else
    if 2 ^ (bits - 1) ≤ r.2 then (2 ^ (bits - 1) : Int) - 1 else (r.2 : Int)

/-- Conversion of a signed integer to an unsigned type of `bits` bits. -/
def toUnsigned (bits : Nat) (x : Int) : Nat :=
  (x % (2 ^ bits : Int)).toNat

/-! ## What the parser reads from its surroundings -/

/-- Everything `ParseVersion` takes from outside the XML element.

* `no_vtables`, `no_globals`: whether `getenv("DFHACK_NO_VTABLES")` and
  `getenv("DFHACK_NO_GLOBALS")` are non-null.
* `LookupPlugin`: the resolver `DFHack::LookupPlugin(DFHack::GLOBAL_NAMES, ·)` of
  PluginManager.h, applied to a possibly null name.
* `DEFAULT_BASE_ADDR`: the constant of Memory.h.
* `ctorBase`: the base address the `VersionInfo` constructor leaves in a new record.
* `sizeofLong`, `sizeofPtr`: `sizeof(unsigned long)` and `sizeof(uintptr_t)` in bytes. -/
structure Env where
  no_vtables : Bool
  no_globals : Bool
  LookupPlugin : Option String → Nat
  DEFAULT_BASE_ADDR : Nat
  ctorBase : Nat
  sizeofLong : Nat
  sizeofPtr : Nat

/-- Lines 147-150 on a non-null `cstr_value`: `strtoul(cstr_value, 0, 0)` when `uintptr_t` has
the size of `unsigned long`, otherwise `strtoull(cstr_value, 0, 0)` (64 bits) converted to
`uintptr_t`. -/
def literalAddr (env : Env) (v : String) : Nat :=
  if env.sizeofPtr = env.sizeofLong then strtoul (8 * env.sizeofLong) v 0
  else strtoul 64 v 0 % 2 ^ (8 * env.sizeofPtr)

/-- Lines 147-150 on a possibly null `cstr_value`: handing a null pointer to `strtoul` or
`strtoull` is undefined behaviour. -/
def parseLiteral (env : Env) (cstr_value : Option String) : Except Fault Nat :=
  match cstr_value with
  | none => Except.error Fault.nullDeref
  | some v => Except.ok (literalAddr env v)

/-- Lines 145-153 of `ParseVersion`: the address of an entry. The test is on `cstr_key`, as in
the source. -/
def entryAddr (env : Env) (cstr_key cstr_value cstr_mangled : Option String) :
    Except Fault Nat :=
  match cstr_key with
  | some _ => parseLiteral env cstr_value
  | none => Except.ok (env.LookupPlugin cstr_mangled)

/-- Body of the `for` loop of `ParseVersion` (lines 127-174) for one child `pMemEntry`:
the record after the iteration, or the fault that leaves the loop. -/
def ParseVersion.entry (env : Env) (cstr_name : String) (mem : VersionInfo)
    (pMemEntry : TiXmlElement) : Except Fault VersionInfo :=
  let type := pMemEntry.Value
  let is_vtable : Bool := type == "vtable-address"
  if is_vtable || type == "global-address" then
    let cstr_key := pMemEntry.Attribute "name"
    match cstr_key with
    | none => Except.error (Fault.thrown (Error.SymbolsXmlUnderspecifiedEntry cstr_name))
    | some key =>
      let cstr_value := pMemEntry.Attribute "value"
      let cstr_mangled := pMemEntry.Attribute "mangled"
      if cstr_value.isNone && cstr_mangled.isNone then
        Except.ok mem
      else if (is_vtable && env.no_vtables) || (!is_vtable && env.no_globals) then
        Except.ok mem
      else
        match entryAddr env cstr_key cstr_value cstr_mangled with
        | Except.error f => Except.error f
        | Except.ok addr =>
          if is_vtable then Except.ok (mem.setVTable key addr)
          else Except.ok (mem.setAddress key addr)
  else if type == "md5-hash" then
    match pMemEntry.Attribute "value" with
    | none => Except.error (Fault.thrown (Error.SymbolsXmlUnderspecifiedEntry cstr_name))
    | some cstr_value => Except.ok (mem.addMD5 cstr_value)
  else if type == "binary-timestamp" then
    match pMemEntry.Attribute "value" with
    | none => Except.error (Fault.thrown (Error.SymbolsXmlUnderspecifiedEntry cstr_name))
    | some cstr_value =>
      Except.ok (mem.addPE (toUnsigned (8 * env.sizeofPtr) (strtol (8 * env.sizeofLong) cstr_value 16)))
  else
    Except.ok mem

/-- The `for` loop of `ParseVersion` over the child elements, in document order. -/
def ParseVersion.loop (env : Env) (cstr_name : String) :
    VersionInfo → List TiXmlElement → Except Fault VersionInfo
  | mem, [] => Except.ok mem
  | mem, pMemEntry :: rest =>
    match ParseVersion.entry env cstr_name mem pMemEntry with
    | Except.error f => Except.error f
    | Except.ok mem1 => ParseVersion.loop env cstr_name mem1 rest

/-- The chain of string comparisons of lines 100-115: the OS tag for an `os-type` value, or
`none` on the branch that returns at once ("ignore it if it's invalid"). -/
def osOfString (os : String) : Option OSType :=
  if os = "windows" then some OSType.OS_WINDOWS
  else if os = "linux" then some OSType.OS_LINUX
  else if os = "darwin" then some OSType.OS_APPLE
  else none

/-- Embedding of `VersionInfoFactory::ParseVersion(entry, mem)`: the record `mem` after the
call, or the fault with which the call ends. -/
def ParseVersion (env : Env) (entry : TiXmlElement) (mem : VersionInfo) :
    Except Fault VersionInfo :=
  match entry.Attribute "name" with
  | none => Except.error (Fault.thrown (Error.SymbolsXmlBadAttribute "name"))
  | some cstr_name =>
    match entry.Attribute "os-type" with
    | none => Except.error (Fault.thrown (Error.SymbolsXmlBadAttribute "os-type"))
    | some os =>
      let mem1 := mem.setVersion cstr_name
      match osOfString os with
      | none => Except.ok mem1
      | some tag =>
        let mem2 := (mem1.setOS tag).setBase env.DEFAULT_BASE_ADDR
        match entry.children with
        | [] => Except.ok mem2
        | pMemEntry :: rest => ParseVersion.loop env cstr_name mem2 (pMemEntry :: rest)

/-! ## The registry -/

/-- State of a `VersionInfoFactory`: the owned records, in insertion order, and the
"last load failed" flag. -/
structure VersionInfoFactory where
  versions : List VersionInfo
  error : Bool
  deriving DecidableEq, Repr

namespace VersionInfoFactory

/-- The constructor: no records, `error = false`. -/
def init : VersionInfoFactory := { versions := [], error := false }

/-- Embedding of `VersionInfoFactory::clear`. -/
def clear (_self : VersionInfoFactory) : VersionInfoFactory :=
  { versions := [], error := false }

/-- The loop of `getVersionInfoByMD5`, started at index `i`; `fuel` bounds the number
of iterations left (`versions.size() - i` suffices). -/
def getVersionInfoByMD5.loop (versions : List VersionInfo) (hash : String) :
    Nat → Nat → Option VersionInfo
  | 0, _ => none
  | fuel + 1, i =>
    match versions.get? i with
    | none => none
    | some v => if v.hasMD5 hash then some v else getVersionInfoByMD5.loop versions hash fuel (i + 1)

/-- Embedding of `VersionInfoFactory::getVersionInfoByMD5`: the returned pointer (null as `none`)
together with the registry after the call. -/
def getVersionInfoByMD5 (self : VersionInfoFactory) (hash : String) :
    Option VersionInfo × VersionInfoFactory :=
  (getVersionInfoByMD5.loop self.versions hash self.versions.length 0, self)

/-- The loop of `getVersionInfoByPETimestamp`, started at index `i`. -/
def getVersionInfoByPETimestamp.loop (versions : List VersionInfo) (timestamp : Nat) :
    Nat → Nat → Option VersionInfo
  | 0, _ => none
  | fuel + 1, i =>
    match versions.get? i with
    | none => none
    | some v =>
      if v.hasPE timestamp then some v
      else getVersionInfoByPETimestamp.loop versions timestamp fuel (i + 1)

/-- Embedding of `VersionInfoFactory::getVersionInfoByPETimestamp`. -/
def getVersionInfoByPETimestamp (self : VersionInfoFactory) (timestamp : Nat) :
    Option VersionInfo × VersionInfoFactory :=
  (getVersionInfoByPETimestamp.loop self.versions timestamp self.versions.length 0, self)

/-- The loop of `loadFile` over the children of the root (lines 220-230): elements tagged
`symbol-table` are visited in document order, those without a `name` are passed over, a
fault of `ParseVersion` leaves the loop before `push_back`. Returns the fault, if any, and the
records held when the loop is left. -/
def loadFile.loop (env : Env) :
    List TiXmlElement → List VersionInfo → Option Fault × List VersionInfo
  | [], versions => (none, versions)
  | pMemInfo :: rest, versions =>
    if pMemInfo.Value = "symbol-table" then
      match pMemInfo.Attribute "name" with
      | some _ =>
        match ParseVersion env pMemInfo (VersionInfo.new env.ctorBase) with
        | Except.error f => (some f, versions)
        | Except.ok version => loadFile.loop env rest (versions ++ [version])
      | none => loadFile.loop env rest versions
    else loadFile.loop env rest versions

/-- Embedding of `VersionInfoFactory::loadFile`. The argument `doc` is what
`TiXmlDocument::LoadFile()` makes of the file at `path_to_xml`. The result is the returned
value or the fault, together with the registry after the call. -/
def loadFile (env : Env) (self : VersionInfoFactory) (doc : TiXmlDocument) :
    Except Fault Bool × VersionInfoFactory :=
  if doc.loadOkay = false then
    (Except.error (Fault.thrown
        (Error.SymbolsXmlParse doc.ErrorDesc doc.ErrorId doc.ErrorRow doc.ErrorCol)),
      { self with error := true })
  else
    match doc.FirstChildElement with
    | none => (Except.error (Fault.thrown Error.SymbolsXmlNoRoot), { self with error := true })
    | some pElem =>
      if pElem.Value ≠ "data-definition" then
        (Except.error (Fault.thrown Error.SymbolsXmlNoRoot), { self with error := true })
      else
        let cleared := self.clear
        match loadFile.loop env pElem.children cleared.versions with
        | (some f, versions) => (Except.error f, { cleared with versions := versions })
        | (none, versions) => (Except.ok true, { versions := versions, error := false })

end VersionInfoFactory

/-! ## Vocabulary of the statements -/

/-- The direct children of the root that `loadFile` hands to `ParseVersion`: those tagged
`symbol-table` that carry a `name` attribute. -/
def isNamedSymbolTable (e : TiXmlElement) : Bool :=
  decide (e.Value = "symbol-table") && (e.Attribute "name").isSome

/-- The records `ParseVersion` builds, each from a new `VersionInfo`, for the named
`symbol-table` elements of a list on which it returns normally, in document order. -/
def recordsOf (env : Env) (elems : List TiXmlElement) : List VersionInfo :=
  elems.filterMap fun e =>
    if isNamedSymbolTable e then
      match ParseVersion env e (VersionInfo.new env.ctorBase) with
      | Except.ok r => some r
      | Except.error _ => none
    else none

/-- An `os-type` value the parser recognizes. -/
def recognizedOS (os : String) : Prop :=
  os = "windows" ∨ os = "linux" ∨ os = "darwin"

instance (os : String) : Decidable (recognizedOS os) := by
  unfold recognizedOS
  infer_instance

/-- A child tagged `global-address` or `vtable-address`. -/
def isAddressEntry (c : TiXmlElement) : Bool :=
  c.Value == "vtable-address" || c.Value == "global-address"

/-- An underspecified child: an `md5-hash` or `binary-timestamp` without `value`, or an
address entry without `name`. -/
def isUnderspecified (c : TiXmlElement) : Bool :=
  (isAddressEntry c && (c.Attribute "name").isNone) ||
  ((c.Value == "md5-hash" || c.Value == "binary-timestamp") && (c.Attribute "value").isNone)

/-- The integer a string of digits denotes in positional notation of the given base. -/
def numeralValue (base : Nat) (ds : List Char) : Nat :=
  ds.foldl (fun acc c => acc * base + (digitVal c).getD 0) 0

/-- The timestamp line 173 records for a `binary-timestamp` value: `strtol(value, 0, 16)`
converted to `uintptr_t`. -/
def timestampOf (env : Env) (v : String) : Nat :=
  toUnsigned (8 * env.sizeofPtr) (strtol (8 * env.sizeofLong) v 16)

/-- The element carries an `os-type` the parser recognizes. -/
def hasRecognizedOS (e : TiXmlElement) : Prop :=
  ∃ os, e.Attribute "os-type" = some os ∧ recognizedOS os

/-- The definitions a list of children makes in the map of the given tag (`global-address`
or `vtable-address`) when the tag is not suppressed: name and address of each child of that
tag carrying a name and a literal value, in document order. -/
def definitionsOf (env : Env) (tag : String) (cs : List TiXmlElement) : List (String × Nat) :=
  cs.filterMap fun c =>
    if c.Value = tag then
      match c.Attribute "name", c.Attribute "value" with
      | some k, some v => some (k, literalAddr env v)
      | _, _ => none
    else none

/-- The address the last definition of a name gives it, scanning the definitions in order;
`none` when the name is never defined. -/
def lastDefinition (defs : List (String × Nat)) (n : String) : Option Nat :=
  defs.foldl (fun acc p => if p.1 = n then some p.2 else acc) none

/-- An address entry with a name but neither a literal value nor a mangled name. -/
def isDummyEntry (c : TiXmlElement) : Bool :=
  isAddressEntry c && (c.Attribute "name").isSome && (c.Attribute "value").isNone &&
    (c.Attribute "mangled").isNone

/-- The element with its dummy address entries deleted. -/
def removeDummyEntries (e : TiXmlElement) : TiXmlElement :=
  TiXmlElement.mk e.Value e.attributes (e.children.filter fun c => !isDummyEntry c)

/-- The document failures `loadFile` reports before it looks at any entry: the underlying
parser failed, there is no root element, or the root is not tagged `data-definition`. -/
def isDocumentError (doc : TiXmlDocument) : Prop :=
  doc.loadOkay = false ∨ ∀ root, doc.FirstChildElement = some root → root.Value ≠ "data-definition"

/-- The definitions the `global-address` children make, none when `DFHACK_NO_GLOBALS` is
set. -/
def globalDefinitions (env : Env) (cs : List TiXmlElement) : List (String × Nat) :=
  if env.no_globals then [] else definitionsOf env "global-address" cs

/-- The definitions the `vtable-address` children make, none when `DFHACK_NO_VTABLES` is
set. -/
def vtableDefinitions (env : Env) (cs : List TiXmlElement) : List (String × Nat) :=
  if env.no_vtables then [] else definitionsOf env "vtable-address" cs

/-- Two records agree on everything but the address maps: name, OS, base address, hash set
and timestamp set. -/
def sameCore (x y : VersionInfo) : Prop :=
  x.version = y.version ∧ x.OS = y.OS ∧ x.base = y.base ∧ x.md5_list = y.md5_list ∧
    x.PE_list = y.PE_list

/-! ### Numerals as the spec reads them -/

/-- The digit characters with their values in positional notation; letters count in either
case. -/
def digitTable : List (Char × Nat) :=
  [('0', 0), ('1', 1), ('2', 2), ('3', 3), ('4', 4), ('5', 5), ('6', 6), ('7', 7), ('8', 8),
   ('9', 9), ('a', 10), ('A', 10), ('b', 11), ('B', 11), ('c', 12), ('C', 12), ('d', 13),
   ('D', 13), ('e', 14), ('E', 14), ('f', 15), ('F', 15)]

/-- The value of a digit character in positional notation, `none` for any other character. -/
def specDigit (c : Char) : Option Nat :=
  digitTable.lookup c

/-- The digits of a string in the given base, most significant first; `none` when some
character is not a digit of the base. -/
def specDigits (base : Nat) : List Char → Option (List Nat)
  | [] => some []
  | c :: cs =>
    match specDigit c, specDigits base cs with
    | some d, some ds => if d < base then some (d :: ds) else none
    | _, _ => none

/-- The integer a list of digits denotes in the given base, most significant digit first. -/
def digitsValue (base : Nat) (ds : List Nat) : Nat :=
  ds.foldl (fun acc d => acc * base + d) 0

/-- White space that may precede a numeral: space, tab, line feed, vertical tab, form feed,
carriage return. -/
def specWhite (c : Char) : Bool :=
  decide (c ∈ [Char.ofNat 32, Char.ofNat 9, Char.ofNat 10, Char.ofNat 11, Char.ofNat 12,
    Char.ofNat 13])

/-- The unsigned integer a numeral denotes, base detected from its prefix: `0x` or `0X` and
hexadecimal digits, `0` and octal digits, or decimal digits not starting with `0`; `none`
for anything else. -/
def numeralOf (cs : List Char) : Option Nat :=
  match cs with
  | [] => none
  | c :: rest =>
    if c = '0' then
      match rest with
      | x :: d :: ds =>
        if x = 'x' ∨ x = 'X' then (specDigits 16 (d :: ds)).map (digitsValue 16)
        else (specDigits 8 rest).map (digitsValue 8)
      | _ => (specDigits 8 rest).map (digitsValue 8)
    else (specDigits 10 cs).map (digitsValue 10)

/-- The unsigned integer a literal `value` denotes with auto-detected base: optional white
space, an optional plus sign, then a numeral; `none` when the string is not of that form. -/
def denotedValue (v : String) : Option Nat :=
  match v.toList.dropWhile specWhite with
  | [] => none
  | c :: cs => if c = '+' then numeralOf cs else numeralOf (c :: cs)

/-- A 64-bit environment with both toggles unset. -/
def sampleEnv : Env :=
  { no_vtables := false, no_globals := false, LookupPlugin := fun _ => 0,
    DEFAULT_BASE_ADDR := 4194304, ctorBase := 0, sizeofLong := 8, sizeofPtr := 8 }

/-- A `symbol-table` with one child of each kind, all well-formed. -/
def sampleTableV1 : TiXmlElement :=
  TiXmlElement.mk "symbol-table" [("name", "v1"), ("os-type", "linux")]
    [TiXmlElement.mk "global-address" [("name", "foo"), ("value", "0x1000")] [],
     TiXmlElement.mk "vtable-address" [("name", "bar"), ("value", "8192")] [],
     TiXmlElement.mk "md5-hash" [("value", "abc")] [],
     TiXmlElement.mk "binary-timestamp" [("value", "4D5A")] []]

/-- A `symbol-table` without `name`, which the loader passes over. -/
def sampleTableUnnamed : TiXmlElement :=
  TiXmlElement.mk "symbol-table" [("os-type", "linux")] []

/-- A `symbol-table` whose `os-type` is not recognized, with a child lacking `value`. -/
def sampleTableAmiga : TiXmlElement :=
  TiXmlElement.mk "symbol-table" [("name", "v2"), ("os-type", "amiga")]
    [TiXmlElement.mk "md5-hash" [] []]

/-- A named `symbol-table` without `os-type`. -/
def sampleTableNoOS : TiXmlElement :=
  TiXmlElement.mk "symbol-table" [("name", "v3")] []

/-- The root element of `sampleDoc`. -/
def sampleRoot : TiXmlElement :=
  TiXmlElement.mk "data-definition" []
    [sampleTableV1, sampleTableUnnamed, TiXmlElement.mk "other" [("name", "zz")] [],
     sampleTableAmiga]

/-- A parsed document with the given top-level elements. -/
def docOf (elements : List TiXmlElement) : TiXmlDocument :=
  { loadOkay := true, ErrorDesc := "", ErrorId := 0, ErrorRow := 0, ErrorCol := 0,
    elements := elements }

/-- A document on which `loadFile` succeeds with two records. -/
def sampleDoc : TiXmlDocument := docOf [sampleRoot]

/-- The root of `sampleDocNoOS`: a good entry, then a named entry without `os-type`, then
another good entry. -/
def sampleRootNoOS : TiXmlElement :=
  TiXmlElement.mk "data-definition" [] [sampleTableV1, sampleTableNoOS, sampleTableAmiga]

/-- A document whose second entry lacks `os-type`. -/
def sampleDocNoOS : TiXmlDocument := docOf [sampleRootNoOS]

/-- A document whose root is not `data-definition`. -/
def sampleDocBadRoot : TiXmlDocument :=
  docOf [TiXmlElement.mk "data-definitions" [] [sampleTableV1]]

/-- A registry left behind by an earlier load. -/
def sampleRegistry : VersionInfoFactory :=
  { versions := [{ version := "old", OS := OSType.OS_WINDOWS, base := 4194304,
                   md5_list := ["0123"], PE_list := [7], Addresses := [("x", 1)],
                   VTables := [] }],
    error := false }

/-- An address entry with a literal value, tagged `global-address`. -/
def sampleGlobalFoo : TiXmlElement :=
  TiXmlElement.mk "global-address" [("name", "foo"), ("value", "0x1000")] []

/-- The same entry tagged `vtable-address`. -/
def sampleVTableFoo : TiXmlElement :=
  TiXmlElement.mk "vtable-address" [("name", "foo"), ("value", "0x1000")] []

/-- A `symbol-table` whose only child is a `global-address` with a name and a mangled name but
no literal value. -/
def sampleTableMangled : TiXmlElement :=
  TiXmlElement.mk "symbol-table" [("name", "v1"), ("os-type", "linux")]
    [TiXmlElement.mk "global-address" [("name", "foo"), ("mangled", "_ZN3fooE")] []]

/-- A `symbol-table` with a `global-address` carrying a literal value and a `vtable-address`
carrying only a mangled name. -/
def sampleTableMangledVTable : TiXmlElement :=
  TiXmlElement.mk "symbol-table" [("name", "v1"), ("os-type", "linux")]
    [TiXmlElement.mk "global-address" [("name", "foo"), ("value", "0x1000")] [],
     TiXmlElement.mk "vtable-address" [("name", "bar"), ("mangled", "_ZTV3bar")] []]

/-- The environment `sampleEnv` with `DFHACK_NO_VTABLES` set. -/
def sampleEnvNoVTables : Env := { sampleEnv with no_vtables := true }

/-- The root of `sampleDocAmiga`: a good entry, an entry with an unrecognized `os-type`, and a
named entry without `os-type`. -/
def sampleRootAmiga : TiXmlElement :=
  TiXmlElement.mk "data-definition" [] [sampleTableV1, sampleTableAmiga, sampleTableNoOS]

/-- A document whose second entry has an unrecognized `os-type` and whose third entry makes
the load fail. -/
def sampleDocAmiga : TiXmlDocument := docOf [sampleRootAmiga]

/-- A `symbol-table` with a good `global-address` followed by an `md5-hash` without `value`
and a `vtable-address` without `name`. -/
def sampleTableNoHashValue : TiXmlElement :=
  TiXmlElement.mk "symbol-table" [("name", "v4"), ("os-type", "windows")]
    [TiXmlElement.mk "global-address" [("name", "foo"), ("value", "0x1000")] [],
     TiXmlElement.mk "md5-hash" [] [],
     TiXmlElement.mk "vtable-address" [] []]

/-- The root of `sampleDocUnderspecified`. -/
def sampleRootUnderspecified : TiXmlElement :=
  TiXmlElement.mk "data-definition" [] [sampleTableV1, sampleTableNoHashValue]

/-- A document whose second entry has an `md5-hash` without `value`. -/
def sampleDocUnderspecified : TiXmlDocument := docOf [sampleRootUnderspecified]

/-- A document the underlying parser rejects. -/
def sampleDocUnparsed : TiXmlDocument :=
  { loadOkay := false, ErrorDesc := "Error reading end tag.", ErrorId := 9, ErrorRow := 3,
    ErrorCol := 1, elements := [] }

/-- A `symbol-table` that defines `foo` twice as a global and `bar` twice as a vtable, with a
dummy entry in between. -/
def sampleTableDuplicates : TiXmlElement :=
  TiXmlElement.mk "symbol-table" [("name", "v5"), ("os-type", "darwin")]
    [TiXmlElement.mk "global-address" [("name", "foo"), ("value", "0x1000")] [],
     TiXmlElement.mk "vtable-address" [("name", "bar"), ("value", "16")] [],
     TiXmlElement.mk "global-address" [("name", "dummy")] [],
     TiXmlElement.mk "global-address" [("name", "foo"), ("value", "0x3000")] [],
     TiXmlElement.mk "vtable-address" [("name", "bar"), ("value", "32")] [],
     TiXmlElement.mk "md5-hash" [("value", "abc")] []]

/-- The environment `sampleEnv` with `DFHACK_NO_GLOBALS` set. -/
def sampleEnvNoGlobals : Env := { sampleEnv with no_globals := true }

/-- A `global-address` whose literal value, 2 to the power 64, does not fit 64 bits. -/
def sampleGlobalHuge : TiXmlElement :=
  TiXmlElement.mk "global-address" [("name", "foo"), ("value", "0x10000000000000000")] []

/-- A 32-bit environment: `long` and `uintptr_t` of four bytes, both toggles unset. -/
def sampleEnv32 : Env :=
  { no_vtables := false, no_globals := false, LookupPlugin := fun _ => 0,
    DEFAULT_BASE_ADDR := 4194304, ctorBase := 0, sizeofLong := 4, sizeofPtr := 4 }

/-- What a normally completed loop iteration has done to the record: nothing, or the one
update that belongs to the child's tag. -/
theorem ParseVersion.entry_ok_cases (env : Env) (cstr_name : String) (mem mem1 : VersionInfo)
    (c : TiXmlElement) (h : ParseVersion.entry env cstr_name mem c = Except.ok mem1) :
    mem1 = mem ∨
      (c.Value = "vtable-address" ∧ env.no_vtables = false ∧
        ∃ k v, c.Attribute "name" = some k ∧ c.Attribute "value" = some v ∧
          mem1 = mem.setVTable k (literalAddr env v)) ∨
      (c.Value = "global-address" ∧ env.no_globals = false ∧
        ∃ k v, c.Attribute "name" = some k ∧ c.Attribute "value" = some v ∧
          mem1 = mem.setAddress k (literalAddr env v)) ∨
      (c.Value = "md5-hash" ∧ ∃ v, c.Attribute "value" = some v ∧ mem1 = mem.addMD5 v) ∨
      (c.Value = "binary-timestamp" ∧ ∃ v, c.Attribute "value" = some v ∧
        mem1 = mem.addPE
          (toUnsigned (8 * env.sizeofPtr) (strtol (8 * env.sizeofLong) v 16))) := by
  unfold ParseVersion.entry at h
  by_cases hv : c.Value = "vtable-address"
  · cases hn : c.Attribute "name" <;> cases hval : c.Attribute "value" <;>
      cases hman : c.Attribute "mangled" <;> cases hvt : env.no_vtables <;>
      simp [hv, hn, hval, hman, hvt, entryAddr, parseLiteral] at h <;>
      simp [h, hv]
  · by_cases hg : c.Value = "global-address"
    · cases hn : c.Attribute "name" <;> cases hval : c.Attribute "value" <;>
        cases hman : c.Attribute "mangled" <;> cases hgl : env.no_globals <;>
        simp [hg, hn, hval, hman, hgl, entryAddr, parseLiteral] at h <;>
        simp [h, hg]
    · by_cases hm : c.Value = "md5-hash"
      · cases hval : c.Attribute "value" <;> simp [hm, hval] at h
        simp [h, hm]
      · by_cases ht : c.Value = "binary-timestamp"
        · cases hval : c.Attribute "value" <;> simp [ht, hval] at h
          simp [h, ht]
        · simp [hv, hg, hm, ht] at h
          simp [h]

/-- A loop iteration never touches the record's name. -/
theorem ParseVersion.entry_version (env : Env) (cstr_name : String) (mem mem1 : VersionInfo)
    (c : TiXmlElement) (h : ParseVersion.entry env cstr_name mem c = Except.ok mem1) :
    mem1.version = mem.version := by
  rcases ParseVersion.entry_ok_cases env cstr_name mem mem1 c h with
    h | ⟨_, _, _, _, _, _, h⟩ | ⟨_, _, _, _, _, _, h⟩ | ⟨_, _, _, h⟩ | ⟨_, _, _, h⟩ <;>
    rw [h] <;> rfl

/-- The loop over the children never touches the record's name. -/
theorem ParseVersion.loop_version (env : Env) (cstr_name : String) :
    ∀ (cs : List TiXmlElement) (mem r : VersionInfo),
      ParseVersion.loop env cstr_name mem cs = Except.ok r → r.version = mem.version := by
  intro cs
  induction cs with
  | nil =>
    intro mem r h
    simp only [ParseVersion.loop] at h
    cases h
    rfl
  | cons c cs ih =>
    intro mem r h
    simp only [ParseVersion.loop] at h
    split at h
    · cases h
    · next mem1 hm =>
      rw [ih mem1 r h]
      exact ParseVersion.entry_version env cstr_name mem mem1 c hm

/-- A record `ParseVersion` returns carries the element's `name` attribute as its name. -/
theorem ParseVersion_version (env : Env) (e : TiXmlElement) (mem r : VersionInfo)
    (h : ParseVersion env e mem = Except.ok r) : e.Attribute "name" = some r.version := by
  unfold ParseVersion at h
  split at h
  · cases h
  · next cstr_name hn =>
    split at h
    · cases h
    · simp only at h
      split at h
      · cases h
        rw [hn]
        rfl
      · split at h
        · cases h
          rw [hn]
          rfl
        · rw [hn, ParseVersion.loop_version env cstr_name _ _ r h]
          rfl

/-! ## Facts about the loop of `loadFile` -/

namespace VersionInfoFactory

/-- While every named `symbol-table` element of a prefix parses, the loop runs through the
prefix and appends the records built from it. -/
theorem loadFile.loop_prefix (env : Env) :
    ∀ (pre rest : List TiXmlElement) (versions : List VersionInfo),
      (∀ e ∈ pre, isNamedSymbolTable e = true →
        ∃ r, ParseVersion env e (VersionInfo.new env.ctorBase) = Except.ok r) →
      loadFile.loop env (pre ++ rest) versions =
        loadFile.loop env rest (versions ++ recordsOf env pre) := by
  intro pre
  induction pre with
  | nil =>
    intro rest versions _
    simp [recordsOf]
  | cons e pre ih =>
    intro rest versions hpre
    have hrest : ∀ x ∈ pre, isNamedSymbolTable x = true →
        ∃ r, ParseVersion env x (VersionInfo.new env.ctorBase) = Except.ok r :=
      fun x hx => hpre x (List.mem_cons_of_mem e hx)
    by_cases hnamed : isNamedSymbolTable e = true
    · obtain ⟨r, hr⟩ := hpre e (List.mem_cons_self e pre) hnamed
      have hrec : recordsOf env (e :: pre) = r :: recordsOf env pre := by
        simp [recordsOf, hnamed, hr]
      have hn := hnamed
      simp only [isNamedSymbolTable, Bool.and_eq_true, decide_eq_true_eq,
        Option.isSome_iff_exists] at hn
      obtain ⟨htag, n, hname⟩ := hn
      rw [List.cons_append, loadFile.loop]
      simp only [htag, if_true, hname, hr]
      rw [ih rest (versions ++ [r]) hrest, hrec]
      simp
    · have hrec : recordsOf env (e :: pre) = recordsOf env pre := by
        simp [recordsOf, hnamed]
      rw [List.cons_append, loadFile.loop, hrec, ← ih rest versions hrest]
      simp only [isNamedSymbolTable, Bool.and_eq_true, decide_eq_true_eq, not_and,
        Bool.not_eq_true, Option.not_isSome, Option.isNone_iff_eq_none] at hnamed
      by_cases htag : e.Value = "symbol-table"
      · simp only [htag, if_true]
        have hnone : e.Attribute "name" = none := by
          have := hnamed htag
          simpa using this
        simp only [hnone]
      · simp only [htag, if_false]

/-- When the loop ends without a fault, every named `symbol-table` element has parsed. -/
theorem loadFile.loop_none (env : Env) :
    ∀ (elems : List TiXmlElement) (versions : List VersionInfo),
      (loadFile.loop env elems versions).1 = none →
      ∀ e ∈ elems, isNamedSymbolTable e = true →
        ∃ r, ParseVersion env e (VersionInfo.new env.ctorBase) = Except.ok r := by
  intro elems
  induction elems with
  | nil =>
    intro versions _ e he
    cases he
  | cons x elems ih =>
    intro versions h e he hnamed
    rw [loadFile.loop] at h
    by_cases htag : x.Value = "symbol-table"
    · simp only [htag, if_true] at h
      cases hname : x.Attribute "name" with
      | none =>
        simp only [hname] at h
        rcases List.mem_cons.mp he with hex | hmem
        · subst hex
          simp [isNamedSymbolTable, hname] at hnamed
        · exact ih versions h e hmem hnamed
      | some n =>
        simp only [hname] at h
        cases hpv : ParseVersion env x (VersionInfo.new env.ctorBase) with
        | error f =>
          simp only [hpv] at h
          cases h
        | ok r =>
          simp only [hpv] at h
          rcases List.mem_cons.mp he with hex | hmem
          · subst hex
            exact ⟨r, hpv⟩
          · exact ih _ h e hmem hnamed
    · simp only [htag, if_false] at h
      rcases List.mem_cons.mp he with hex | hmem
      · subst hex
        simp [isNamedSymbolTable, htag] at hnamed
      · exact ih versions h e hmem hnamed

/-- The names of the records built from a list whose named `symbol-table` elements all parse
are the `name` attributes of those elements, in order. -/
theorem recordsOf_names (env : Env) :
    ∀ (elems : List TiXmlElement),
      (∀ e ∈ elems, isNamedSymbolTable e = true →
        ∃ r, ParseVersion env e (VersionInfo.new env.ctorBase) = Except.ok r) →
      (recordsOf env elems).map VersionInfo.version =
        (elems.filter fun e => decide (e.Value = "symbol-table")).filterMap
          fun e => e.Attribute "name" := by
  intro elems
  induction elems with
  | nil =>
    intro _
    rfl
  | cons x elems ih =>
    intro hall
    have hrest := ih fun e he => hall e (List.mem_cons_of_mem x he)
    by_cases htag : x.Value = "symbol-table"
    · cases hname : x.Attribute "name" with
      | none =>
        have hrec : recordsOf env (x :: elems) = recordsOf env elems := by
          simp [recordsOf, isNamedSymbolTable, hname]
        rw [hrec, hrest]
        simp [List.filter_cons, htag, List.filterMap_cons, hname]
      | some n =>
        have hnamed : isNamedSymbolTable x = true := by
          simp [isNamedSymbolTable, htag, hname]
        obtain ⟨r, hr⟩ := hall x (List.mem_cons_self x elems) hnamed
        have hrec : recordsOf env (x :: elems) = r :: recordsOf env elems := by
          simp [recordsOf, hnamed, hr]
        have hv := ParseVersion_version env x _ r hr
        rw [hname] at hv
        cases hv
        rw [hrec, List.map_cons, hrest]
        simp [List.filter_cons, htag, List.filterMap_cons, hname]
    · have hrec : recordsOf env (x :: elems) = recordsOf env elems := by
        simp [recordsOf, isNamedSymbolTable, htag]
      rw [hrec, hrest]
      simp [List.filter_cons, htag]

end VersionInfoFactory

/-- Reading back the key just assigned gives the assigned address. -/
theorem mapFind_mapSet_self (m : List (String × Nat)) (key : String) (addr : Nat) :
    mapFind (mapSet m key addr) key = some addr := by
  induction m with
  | nil => simp [mapSet, mapFind]
  | cons p m ih =>
    obtain ⟨k, a⟩ := p
    by_cases hk : k = key
    · simp [mapSet, mapFind, hk]
    · simp [mapSet, mapFind, hk, ih]

/-- The loop over a concatenation runs the first part and continues from its record. -/
theorem ParseVersion.loop_append (env : Env) (cstr_name : String) :
    ∀ (pre rest : List TiXmlElement) (mem0 mem : VersionInfo),
      ParseVersion.loop env cstr_name mem0 pre = Except.ok mem →
      ParseVersion.loop env cstr_name mem0 (pre ++ rest) =
        ParseVersion.loop env cstr_name mem rest := by
  intro pre
  induction pre with
  | nil =>
    intro rest mem0 mem h
    simp only [ParseVersion.loop] at h
    cases h
    rfl
  | cons c pre ih =>
    intro rest mem0 mem h
    simp only [List.cons_append, ParseVersion.loop] at h ⊢
    cases hm : ParseVersion.entry env cstr_name mem0 c with
    | error f =>
      simp only [hm] at h
      cases h
    | ok mem1 =>
      simp only [hm] at h ⊢
      exact ih rest mem1 mem h

/-- The `os-type` values on which `ParseVersion` returns at once are the unrecognized ones. -/
theorem osOfString_eq_none_iff (os : String) : osOfString os = none ↔ ¬ recognizedOS os := by
  unfold osOfString recognizedOS
  by_cases h1 : os = "windows"
  · simp [h1]
  · by_cases h2 : os = "linux"
    · simp [h2]
    · by_cases h3 : os = "darwin"
      · simp [h3]
      · simp [h1, h2, h3]

namespace VersionInfoFactory

/-- The loop of `loadFile` only appends: the records it starts from stay in front. -/
theorem loadFile.loop_extends (env : Env) :
    ∀ (elems : List TiXmlElement) (versions : List VersionInfo),
      versions <+: (loadFile.loop env elems versions).2 := by
  intro elems
  induction elems with
  | nil =>
    intro versions
    exact List.prefix_refl versions
  | cons x elems ih =>
    intro versions
    rw [loadFile.loop]
    split
    · split
      · split
        · exact List.prefix_refl versions
        · exact (List.prefix_append versions _).trans (ih _)
      · exact ih versions
    · exact ih versions

end VersionInfoFactory

/-! ## Loading -/

namespace VersionInfoFactory

/-- On a parsed document whose root is `data-definition`, `loadFile` is `clear` followed by the
loop over the root's children. -/
theorem loadFile_of_root (env : Env) (self : VersionInfoFactory) (doc : TiXmlDocument)
    (root : TiXmlElement) (hload : doc.loadOkay = true)
    (hroot : doc.FirstChildElement = some root) (hval : root.Value = "data-definition") :
    self.loadFile env doc =
      match loadFile.loop env root.children [] with
      | (some f, versions) => (Except.error f, { versions := versions, error := false })
      | (none, versions) => (Except.ok true, { versions := versions, error := false }) := by
  unfold loadFile
  simp only [hload, hroot, hval, clear]
  rfl

/-- A successful `loadFile` has read a parsed document. -/
theorem loadOkay_of_loadFile_ok (env : Env) (self : VersionInfoFactory) (doc : TiXmlDocument)
    (hok : (self.loadFile env doc).1 = Except.ok true) : doc.loadOkay = true := by
  cases hload : doc.loadOkay with
  | true => rfl
  | false =>
    unfold loadFile at hok
    simp only [hload, if_true] at hok
    cases hok

/-- After a successful `loadFile` the registry holds the records built from the named
`symbol-table` children of the root, all of which have parsed. -/
theorem loadFile_ok_versions (env : Env) (self : VersionInfoFactory) (doc : TiXmlDocument)
    (root : TiXmlElement) (hroot : doc.FirstChildElement = some root)
    (hval : root.Value = "data-definition")
    (hok : (self.loadFile env doc).1 = Except.ok true) :
    self.loadFile env doc =
        (Except.ok true, { versions := recordsOf env root.children, error := false }) ∧
      ∀ e ∈ root.children, isNamedSymbolTable e = true →
        ∃ r, ParseVersion env e (VersionInfo.new env.ctorBase) = Except.ok r := by
  have hload := loadOkay_of_loadFile_ok env self doc hok
  have heq := loadFile_of_root env self doc root hload hroot hval
  rw [heq] at hok ⊢
  have hnone : (loadFile.loop env root.children []).1 = none := by
    rcases hl : loadFile.loop env root.children [] with ⟨_ | f, vs⟩
    · rfl
    · rw [hl] at hok
      cases hok
  have hall := loadFile.loop_none env root.children [] hnone
  have hpre := loadFile.loop_prefix env root.children [] [] hall
  rw [List.append_nil, List.nil_append] at hpre
  rw [hpre]
  exact ⟨rfl, hall⟩

/-- C2. After a successful `loadFile` of a document whose root is `data-definition`, the
registry holds one record per direct `symbol-table` child of the root that carries a `name`
attribute, in document order: the record names are those children's `name` attributes, and
there are as many records as such children. -/
theorem loadFile_one_record_per_named_symbol_table (env : Env) (self : VersionInfoFactory)
    (doc : TiXmlDocument) (root : TiXmlElement) (hroot : doc.FirstChildElement = some root)
    (hval : root.Value = "data-definition")
    (hok : (self.loadFile env doc).1 = Except.ok true) :
    (self.loadFile env doc).2.versions.map VersionInfo.version =
        ((root.children.filter fun e => decide (e.Value = "symbol-table")).filterMap
          fun e => e.Attribute "name") ∧
      (self.loadFile env doc).2.versions.length =
        (root.children.filter isNamedSymbolTable).length := by
  obtain ⟨heq, hall⟩ := loadFile_ok_versions env self doc root hroot hval hok
  have hnames := recordsOf_names env root.children hall
  rw [heq]
  refine ⟨hnames, ?_⟩
  have hlen := congrArg List.length hnames
  rw [List.length_map] at hlen
  show (recordsOf env root.children).length = _
  rw [hlen]
  clear hnames hlen hall heq
  induction root.children with
  | nil => rfl
  | cons x xs ih =>
    by_cases htag : x.Value = "symbol-table"
    · cases hname : x.Attribute "name" with
      | none => simpa [List.filter_cons, htag, hname, isNamedSymbolTable] using ih
      | some n => simpa [List.filter_cons, htag, hname, isNamedSymbolTable] using ih
    · simpa [List.filter_cons, htag, isNamedSymbolTable] using ih

/-- Witness for C2 on `sampleDoc`, loaded over a registry that already holds a record. -/
theorem loadFile_one_record_per_named_symbol_table_witness :
    sampleDoc.FirstChildElement = some sampleRoot ∧
      sampleRoot.Value = "data-definition" ∧
      (sampleRegistry.loadFile sampleEnv sampleDoc).1 = Except.ok true ∧
      (sampleRegistry.loadFile sampleEnv sampleDoc).2.versions.map VersionInfo.version =
        ["v1", "v2"] ∧
      (sampleRegistry.loadFile sampleEnv sampleDoc).2.versions.length = 2 :=
  ⟨rfl, rfl, rfl,
    (loadFile_one_record_per_named_symbol_table sampleEnv sampleRegistry sampleDoc sampleRoot
      rfl rfl rfl).1,
    (loadFile_one_record_per_named_symbol_table sampleEnv sampleRegistry sampleDoc sampleRoot
      rfl rfl rfl).2⟩

/-- C3. A successful `loadFile` does not depend on what the registry held before: it leaves
the registry exactly as the same load into an empty registry does. -/
theorem loadFile_ok_independent_of_prior_state (env : Env) (self : VersionInfoFactory)
    (doc : TiXmlDocument) (hok : (self.loadFile env doc).1 = Except.ok true) :
    self.loadFile env doc = init.loadFile env doc ∧
      ∀ other : VersionInfoFactory, (other.loadFile env doc).2 = (self.loadFile env doc).2 := by
  have hload := loadOkay_of_loadFile_ok env self doc hok
  cases hroot : doc.FirstChildElement with
  | none =>
    unfold loadFile at hok
    simp only [hload, hroot] at hok
    cases hok
  | some root =>
    by_cases hval : root.Value = "data-definition"
    · refine ⟨?_, fun other => ?_⟩
      · rw [loadFile_of_root env self doc root hload hroot hval,
          loadFile_of_root env init doc root hload hroot hval]
      · rw [loadFile_of_root env self doc root hload hroot hval,
          loadFile_of_root env other doc root hload hroot hval]
    · unfold loadFile at hok
      simp [hload, hroot, hval] at hok

/-- Witness for C3: `sampleDoc` loaded over `sampleRegistry`. -/
theorem loadFile_ok_independent_of_prior_state_witness :
    (sampleRegistry.loadFile sampleEnv sampleDoc).1 = Except.ok true ∧
      sampleRegistry.loadFile sampleEnv sampleDoc = init.loadFile sampleEnv sampleDoc ∧
      (sampleRegistry.loadFile sampleEnv sampleDoc).2.versions.length = 2 :=
  ⟨rfl, (loadFile_ok_independent_of_prior_state sampleEnv sampleRegistry sampleDoc rfl).1, rfl⟩

/-- C4. When a named `symbol-table` child lacks `os-type` and every named `symbol-table` child
before it parses, `loadFile` fails with the missing-attribute error for `os-type`, and the
registry holds exactly the records built from the named `symbol-table` children before the
failing one, in document order. -/
theorem loadFile_missing_os_type (env : Env) (self : VersionInfoFactory) (doc : TiXmlDocument)
    (root : TiXmlElement) (pre : List TiXmlElement) (bad : TiXmlElement)
    (post : List TiXmlElement) (hload : doc.loadOkay = true)
    (hroot : doc.FirstChildElement = some root) (hval : root.Value = "data-definition")
    (hchildren : root.children = pre ++ bad :: post)
    (hbad : isNamedSymbolTable bad = true) (hbados : bad.Attribute "os-type" = none)
    (hpre : ∀ e ∈ pre, isNamedSymbolTable e = true →
      ∃ r, ParseVersion env e (VersionInfo.new env.ctorBase) = Except.ok r) :
    (self.loadFile env doc).1 =
        Except.error (Fault.thrown (Error.SymbolsXmlBadAttribute "os-type")) ∧
      (self.loadFile env doc).2.versions = recordsOf env pre ∧
      (recordsOf env pre).map VersionInfo.version =
        ((pre.filter fun e => decide (e.Value = "symbol-table")).filterMap
          fun e => e.Attribute "name") := by
  have hn := hbad
  simp only [isNamedSymbolTable, Bool.and_eq_true, decide_eq_true_eq,
    Option.isSome_iff_exists] at hn
  obtain ⟨htag, n, hname⟩ := hn
  have hpv : ParseVersion env bad (VersionInfo.new env.ctorBase) =
      Except.error (Fault.thrown (Error.SymbolsXmlBadAttribute "os-type")) := by
    unfold ParseVersion
    simp only [hname, hbados]
  have hloop : loadFile.loop env root.children [] =
      (some (Fault.thrown (Error.SymbolsXmlBadAttribute "os-type")), recordsOf env pre) := by
    rw [hchildren, loadFile.loop_prefix env pre (bad :: post) [] hpre, List.nil_append,
      loadFile.loop]
    simp only [htag, if_true, hname, hpv]
  rw [loadFile_of_root env self doc root hload hroot hval, hloop]
  exact ⟨rfl, rfl, recordsOf_names env pre hpre⟩

/-- Witness for C4: in `sampleDocNoOS` the second entry lacks `os-type`; the record of the
first entry stays, the third entry contributes nothing. -/
theorem loadFile_missing_os_type_witness :
    (sampleRegistry.loadFile sampleEnv sampleDocNoOS).1 =
        Except.error (Fault.thrown (Error.SymbolsXmlBadAttribute "os-type")) ∧
      (sampleRegistry.loadFile sampleEnv sampleDocNoOS).2.versions =
        recordsOf sampleEnv [sampleTableV1] ∧
      (recordsOf sampleEnv [sampleTableV1]).map VersionInfo.version = ["v1"] :=
  loadFile_missing_os_type sampleEnv sampleRegistry sampleDocNoOS sampleRootNoOS
    [sampleTableV1] sampleTableNoOS [sampleTableAmiga] rfl rfl rfl rfl rfl rfl
    (fun e he _ => by
      rw [List.mem_singleton] at he
      subst he
      exact ⟨_, rfl⟩)

/-- C5. On a document that parses but has no root element, or a root whose tag is not
`data-definition`, `loadFile` fails with `SymbolsXmlNoRoot` and adds no record: every record
present afterwards was present before (the records are in fact the same sequence). -/
theorem loadFile_no_root (env : Env) (self : VersionInfoFactory) (doc : TiXmlDocument)
    (hload : doc.loadOkay = true)
    (hroot : ∀ root, doc.FirstChildElement = some root → root.Value ≠ "data-definition") :
    (self.loadFile env doc).1 = Except.error (Fault.thrown Error.SymbolsXmlNoRoot) ∧
      (∀ r ∈ (self.loadFile env doc).2.versions, r ∈ self.versions) ∧
      (self.loadFile env doc).2.versions = self.versions := by
  have key : self.loadFile env doc =
      (Except.error (Fault.thrown Error.SymbolsXmlNoRoot), { self with error := true }) := by
    unfold loadFile
    cases hfirst : doc.FirstChildElement with
    | none => simp [hload]
    | some root => simp [hload, hroot root hfirst]
  rw [key]
  exact ⟨rfl, fun r hr => hr, rfl⟩

/-- Witness for C5: `sampleDocBadRoot` has the root tag `data-definitions`. -/
theorem loadFile_no_root_witness :
    (sampleRegistry.loadFile sampleEnv sampleDocBadRoot).1 =
        Except.error (Fault.thrown Error.SymbolsXmlNoRoot) ∧
      (∀ r ∈ (sampleRegistry.loadFile sampleEnv sampleDocBadRoot).2.versions,
        r ∈ sampleRegistry.versions) ∧
      (sampleRegistry.loadFile sampleEnv sampleDocBadRoot).2.versions =
        sampleRegistry.versions :=
  loadFile_no_root sampleEnv sampleRegistry sampleDocBadRoot rfl
    (fun root h => by
      simp only [sampleDocBadRoot, docOf, TiXmlDocument.FirstChildElement, List.head?_cons,
        Option.some.injEq] at h
      subst h
      decide)

end VersionInfoFactory

/-! ## Lookup -/

namespace VersionInfoFactory

/-- Invariant of the scan of `getVersionInfoByMD5` from index `i` with enough fuel to reach the
end of the vector. -/
theorem getVersionInfoByMD5.loop_spec (versions : List VersionInfo) (hash : String) :
    ∀ fuel i, i + fuel = versions.length →
      (getVersionInfoByMD5.loop versions hash fuel i = none ∧
        ∀ j v, i ≤ j → versions.get? j = some v → hash ∉ v.md5_list) ∨
      (∃ k r, getVersionInfoByMD5.loop versions hash fuel i = some r ∧ i ≤ k ∧
        versions.get? k = some r ∧ hash ∈ r.md5_list ∧
        ∀ j v, i ≤ j → j < k → versions.get? j = some v → hash ∉ v.md5_list) := by
  intro fuel
  induction fuel with
  | zero =>
    intro i hi
    left
    refine ⟨rfl, ?_⟩
    intro j v hij hj
    have hlt : j < versions.length := (List.get?_eq_some.mp hj).1
    omega
  | succ fuel ih =>
    intro i hi
    have hlt : i < versions.length := by omega
    have hget : versions.get? i = some (versions.get ⟨i, hlt⟩) := List.get?_eq_get hlt
    by_cases hm : hash ∈ (versions.get ⟨i, hlt⟩).md5_list
    · right
      refine ⟨i, versions.get ⟨i, hlt⟩, ?_, le_refl i, hget, hm, ?_⟩
      · simp only [getVersionInfoByMD5.loop, hget, VersionInfo.hasMD5, hm, decide_True, if_true]
      · intro j v h1 h2
        omega
    · have hstep : getVersionInfoByMD5.loop versions hash (fuel + 1) i =
          getVersionInfoByMD5.loop versions hash fuel (i + 1) := by
        simp only [getVersionInfoByMD5.loop, hget, VersionInfo.hasMD5, hm, decide_False]
        rfl
      have hhere : ∀ j v, i ≤ j → j < i + 1 → versions.get? j = some v →
          hash ∉ v.md5_list := by
        intro j v h1 h2 hj
        have hji : j = i := by omega
        subst hji
        rw [hget] at hj
        cases hj
        exact hm
      rcases ih (i + 1) (by omega) with ⟨hnone, hall⟩ | ⟨k, r, hsome, hik, hk, hmem, hall⟩
      · left
        refine ⟨hstep.trans hnone, ?_⟩
        intro j v hij hj
        by_cases hlt2 : j < i + 1
        · exact hhere j v hij hlt2 hj
        · exact hall j v (by omega) hj
      · right
        refine ⟨k, r, hstep.trans hsome, by omega, hk, hmem, ?_⟩
        intro j v hij hjk hj
        by_cases hlt2 : j < i + 1
        · exact hhere j v hij hlt2 hj
        · exact hall j v (by omega) hjk hj

/-- C1. `getVersionInfoByMD5(h)` leaves the registry unchanged, returns null exactly when no
record's hash set contains `h`, and otherwise returns the record at the lowest index whose hash
set contains `h`. -/
theorem getVersionInfoByMD5_first_match (self : VersionInfoFactory) (hash : String) :
    (self.getVersionInfoByMD5 hash).2 = self ∧
    ((self.getVersionInfoByMD5 hash).1 = none ↔ ∀ v ∈ self.versions, hash ∉ v.md5_list) ∧
    (∀ r, (self.getVersionInfoByMD5 hash).1 = some r →
      ∃ i, self.versions.get? i = some r ∧ hash ∈ r.md5_list ∧
        ∀ j v, j < i → self.versions.get? j = some v → hash ∉ v.md5_list) := by
  refine ⟨rfl, ?_, ?_⟩
  · constructor
    · intro hnone v hv
      obtain ⟨j, hj⟩ := List.mem_iff_get?.mp hv
      rcases getVersionInfoByMD5.loop_spec self.versions hash self.versions.length 0 (by omega)
        with ⟨_, hall⟩ | ⟨k, r, hsome, _, _, _, _⟩
      · exact hall j v (Nat.zero_le j) hj
      · simp only [getVersionInfoByMD5] at hnone
        rw [hsome] at hnone
        cases hnone
    · intro hall
      rcases getVersionInfoByMD5.loop_spec self.versions hash self.versions.length 0 (by omega)
        with ⟨hnone, _⟩ | ⟨k, r, _, _, hk, hmem, _⟩
      · exact hnone
      · exact absurd hmem (hall r (List.mem_iff_get?.mpr ⟨k, hk⟩))
  · intro r hr
    rcases getVersionInfoByMD5.loop_spec self.versions hash self.versions.length 0 (by omega)
      with ⟨hnone, _⟩ | ⟨k, r2, hsome, _, hk, hmem, hall⟩
    · simp only [getVersionInfoByMD5] at hr
      rw [hnone] at hr
      cases hr
    · simp only [getVersionInfoByMD5] at hr
      rw [hsome] at hr
      cases hr
      exact ⟨k, hk, hmem, fun j v hjk hj => hall j v (Nat.zero_le j) hjk hj⟩

end VersionInfoFactory

/-! ## Literal values -/

/-- On a run of digits of the base, `readDigits` computes the positional value. -/
theorem readDigits_of_all (base : Nat) :
    ∀ (ds : List Char) (acc : Nat), (∀ c ∈ ds, isDigitOf base c = true) →
      readDigits base acc ds = ds.foldl (fun a c => a * base + (digitVal c).getD 0) acc := by
  intro ds
  induction ds with
  | nil =>
    intro acc _
    rfl
  | cons c cs ih =>
    intro acc h
    have hc := h c (List.mem_cons_self c cs)
    unfold isDigitOf at hc
    cases hd : digitVal c with
    | none => simp [hd] at hc
    | some d =>
      simp only [hd, decide_eq_true_eq] at hc
      simp only [readDigits, hd, hc, if_true, List.foldl_cons, Option.getD_some]
      exact ih _ fun x hx => h x (List.mem_cons_of_mem c hx)

/-- Base detection, hexadecimal: `strtoul` with base 0 reads `0x` followed by hexadecimal
digits as the base-16 value of the digits, when it fits the type. -/
theorem strtoul_hex (bits : Nat) (d : Char) (ds : List Char)
    (hall : ∀ c ∈ d :: ds, isDigitOf 16 c = true)
    (hfit : numeralValue 16 (d :: ds) < 2 ^ bits) :
    strtoul bits (String.mk ('0' :: 'x' :: d :: ds)) 0 = numeralValue 16 (d :: ds) := by
  have hd := hall d (List.mem_cons_self d ds)
  have hmag : strtoMagnitude (String.mk ('0' :: 'x' :: d :: ds)) 0 =
      (false, numeralValue 16 (d :: ds)) := by
    unfold strtoMagnitude
    have h1 : skipSpace (String.mk ('0' :: 'x' :: d :: ds)).toList = '0' :: 'x' :: d :: ds := by
      rfl
    have h2 : readSign ('0' :: 'x' :: d :: ds) = (false, '0' :: 'x' :: d :: ds) := by
      rfl
    have h3 : readBase 0 ('0' :: 'x' :: d :: ds) = (16, d :: ds) := by
      simp [readBase, hd]
    simp only [h1, h2, h3, readDigits_of_all 16 (d :: ds) 0 hall, numeralValue]
  unfold strtoul
  simp only [hmag]
  rw [if_neg (by omega)]
  simp


/-- Base detection, octal: `strtoul` with base 0 reads `0` followed by octal digits as the
base-8 value of the digits, when it fits the type. -/
theorem strtoul_octal (bits : Nat) (ds : List Char)
    (hall : ∀ c ∈ ds, isDigitOf 8 c = true)
    (hfit : numeralValue 8 ds < 2 ^ bits) :
    strtoul bits (String.mk ('0' :: ds)) 0 = numeralValue 8 ds := by
  have hmag : strtoMagnitude (String.mk ('0' :: ds)) 0 = (false, numeralValue 8 ds) := by
    unfold strtoMagnitude
    have h1 : skipSpace (String.mk ('0' :: ds)).toList = '0' :: ds := by
      rfl
    have h2 : readSign ('0' :: ds) = (false, '0' :: ds) := by
      rfl
    have h3 : readBase 0 ('0' :: ds) = (8, '0' :: ds) := by
      cases ds with
      | nil => rfl
      | cons x rest =>
        cases rest with
        | nil => rfl
        | cons d rest =>
          have hx := hall x (List.mem_cons_self x _)
          have hne : ¬ (x.toNat = 120 ∨ x.toNat = 88) := by
            unfold isDigitOf digitVal at hx
            intro hor
            rcases hor with h | h <;> simp [h] at hx
          simp [readBase, hne]
    have hall0 : ∀ c ∈ '0' :: ds, isDigitOf 8 c = true := by
      intro c hc
      rcases List.mem_cons.mp hc with h | h
      · rw [h]
        rfl
      · exact hall c h
    simp only [h1, h2, h3, readDigits_of_all 8 ('0' :: ds) 0 hall0]
    simp [numeralValue, digitVal]
  unfold strtoul
  simp only [hmag]
  rw [if_neg (by omega)]
  simp

/-- Base detection, decimal: `strtoul` with base 0 reads decimal digits not starting with `0`
as their base-10 value, when it fits the type. -/
theorem strtoul_decimal (bits : Nat) (d : Char) (ds : List Char)
    (hd : 49 ≤ d.toNat ∧ d.toNat ≤ 57)
    (hall : ∀ c ∈ ds, isDigitOf 10 c = true)
    (hfit : numeralValue 10 (d :: ds) < 2 ^ bits) :
    strtoul bits (String.mk (d :: ds)) 0 = numeralValue 10 (d :: ds) := by
  have hmag : strtoMagnitude (String.mk (d :: ds)) 0 = (false, numeralValue 10 (d :: ds)) := by
    unfold strtoMagnitude
    have h0 : (String.mk (d :: ds)).toList = d :: ds := rfl
    have h1 : skipSpace (d :: ds) = d :: ds := by
      have : isspace d = false := by
        unfold isspace
        simp
        omega
      simp [skipSpace, this]
    have h2 : readSign (d :: ds) = (false, d :: ds) := by
      have ha : ¬ d.toNat = 45 := by omega
      have hb : ¬ d.toNat = 43 := by omega
      simp [readSign, ha, hb]
    have h3 : readBase 0 (d :: ds) = (10, d :: ds) := by
      have ha : ¬ d.toNat = 48 := by omega
      simp [readBase, ha]
    have halld : ∀ c ∈ d :: ds, isDigitOf 10 c = true := by
      intro c hc
      rcases List.mem_cons.mp hc with h | h
      · rw [h]
        unfold isDigitOf digitVal
        have h48 : 48 ≤ d.toNat := by omega
        simp [h48, hd.2]
        omega
      · exact hall c h
    simp only [h0, h1, h2, h3, readDigits_of_all 10 (d :: ds) 0 halld, numeralValue]
  unfold strtoul
  simp only [hmag]
  rw [if_neg (by omega)]
  simp

/-- The address of a literal `0x...` that fits both `uintptr_t` and 64 bits is the base-16
value of its digits. -/
theorem literalAddr_hex (env : Env) (d : Char) (ds : List Char)
    (hall : ∀ c ∈ d :: ds, isDigitOf 16 c = true)
    (hfit : numeralValue 16 (d :: ds) < 2 ^ (8 * env.sizeofPtr))
    (h64 : numeralValue 16 (d :: ds) < 2 ^ 64) :
    literalAddr env (String.mk ('0' :: 'x' :: d :: ds)) = numeralValue 16 (d :: ds) := by
  unfold literalAddr
  by_cases hsz : env.sizeofPtr = env.sizeofLong
  · rw [if_pos hsz, ← hsz]
    exact strtoul_hex (8 * env.sizeofPtr) d ds hall hfit
  · rw [if_neg hsz, strtoul_hex 64 d ds hall h64]
    exact Nat.mod_eq_of_lt hfit

/-! ## Address entries -/

/-- One loop iteration on a named address entry with a literal value, relevant toggle unset:
the address goes into the map of the entry's kind and the other map is left alone. -/
theorem ParseVersion.entry_literal (env : Env) (cstr_name : String) (mem : VersionInfo)
    (c : TiXmlElement) (n v : String) (hname : c.Attribute "name" = some n)
    (hvalue : c.Attribute "value" = some v) :
    (c.Value = "global-address" → env.no_globals = false →
      ParseVersion.entry env cstr_name mem c =
        Except.ok (mem.setAddress n (literalAddr env v))) ∧
    (c.Value = "vtable-address" → env.no_vtables = false →
      ParseVersion.entry env cstr_name mem c =
        Except.ok (mem.setVTable n (literalAddr env v))) := by
  constructor
  · intro htag hgl
    unfold ParseVersion.entry
    simp [htag, hname, hvalue, hgl, entryAddr, parseLiteral]
  · intro htag hvt
    unfold ParseVersion.entry
    simp [htag, hname, hvalue, hvt, entryAddr, parseLiteral]

/-- With both toggles unset, a child address entry with name `n` and literal value `v` is
processed without fault; tagged `global-address` it leaves `globals[n]` equal to
`strtoul(v, 0, 0)` (as `uintptr_t`) and `vtables` as it was, tagged `vtable-address` it leaves
`vtables[n]` equal to that integer and `globals` as it was. Here `mem` is the record when the
loop reaches the child `c`, after the children `pre`. -/
theorem ParseVersion_literal_address (env : Env) (cstr_name : String)
    (mem0 mem : VersionInfo) (pre : List TiXmlElement) (c : TiXmlElement) (n v : String)
    (hvt : env.no_vtables = false) (hgl : env.no_globals = false)
    (hname : c.Attribute "name" = some n) (hvalue : c.Attribute "value" = some v)
    (hpre : ParseVersion.loop env cstr_name mem0 pre = Except.ok mem) :
    (c.Value = "global-address" →
      ∃ mem1, ParseVersion.loop env cstr_name mem0 (pre ++ [c]) = Except.ok mem1 ∧
        mapFind mem1.Addresses n = some (literalAddr env v) ∧ mem1.VTables = mem.VTables) ∧
    (c.Value = "vtable-address" →
      ∃ mem1, ParseVersion.loop env cstr_name mem0 (pre ++ [c]) = Except.ok mem1 ∧
        mapFind mem1.VTables n = some (literalAddr env v) ∧
        mem1.Addresses = mem.Addresses) := by
  have hstep := ParseVersion.entry_literal env cstr_name mem c n v hname hvalue
  have happ := ParseVersion.loop_append env cstr_name pre [c] mem0 mem hpre
  constructor
  · intro htag
    refine ⟨mem.setAddress n (literalAddr env v), ?_, ?_, rfl⟩
    · rw [happ]
      simp only [ParseVersion.loop, hstep.1 htag hgl]
    · exact mapFind_mapSet_self mem.Addresses n (literalAddr env v)
  · intro htag
    refine ⟨mem.setVTable n (literalAddr env v), ?_, ?_, rfl⟩
    · rw [happ]
      simp only [ParseVersion.loop, hstep.2 htag hvt]
    · exact mapFind_mapSet_self mem.VTables n (literalAddr env v)

/-- The address computation never reaches the resolver: after the null check on `cstr_key`
the test `if (cstr_key)` always takes the literal-value branch. -/
theorem entryAddr_of_key (env : Env) (key : String) (cstr_value cstr_mangled : Option String) :
    entryAddr env (some key) cstr_value cstr_mangled = parseLiteral env cstr_value := rfl

/-- One loop iteration on a named address entry with a mangled name and no literal value,
not suppressed by its toggle: `strtoul` receives the null `cstr_value`. -/
theorem ParseVersion.entry_mangled_only (env : Env) (cstr_name : String) (mem : VersionInfo)
    (c : TiXmlElement) (n m : String) (hname : c.Attribute "name" = some n)
    (hvalue : c.Attribute "value" = none) (hmangled : c.Attribute "mangled" = some m) :
    (c.Value = "global-address" → env.no_globals = false →
      ParseVersion.entry env cstr_name mem c = Except.error Fault.nullDeref) ∧
    (c.Value = "vtable-address" → env.no_vtables = false →
      ParseVersion.entry env cstr_name mem c = Except.error Fault.nullDeref) := by
  constructor
  · intro htag hgl
    unfold ParseVersion.entry
    simp [htag, hname, hvalue, hmangled, hgl, entryAddr, parseLiteral]
  · intro htag hvt
    unfold ParseVersion.entry
    simp [htag, hname, hvalue, hmangled, hvt, entryAddr, parseLiteral]

/-- C7 (evaluation at the failing input). On a `symbol-table` whose child is
`global-address name="foo" mangled="_ZN3fooE"`, with both toggles unset and whatever the
resolver would answer, `ParseVersion` does not store a resolved address: it hands the null
`cstr_value` to `strtoul`. -/
theorem ParseVersion_mangled_only_null_strtoul (lookup : Option String → Nat) :
    ParseVersion { sampleEnv with LookupPlugin := lookup } sampleTableMangled
      (VersionInfo.new 0) = Except.error Fault.nullDeref := by
  rfl

/-! ## Unrecognized `os-type` -/

/-- C8. On a `symbol-table` element with a name and an `os-type` other than `windows`, `linux`
and `darwin`, whatever its children, `ParseVersion` returns normally; the record of a new
`VersionInfo` has the element's name and empty hash set, timestamp set, globals and vtables;
and `loadFile` appends that record: when the element is a child of the root and the named
`symbol-table` children before it parse, the registry after the call starts with their records
followed by this one. -/
theorem ParseVersion_unrecognized_os (env : Env) (e : TiXmlElement) (n os : String)
    (hname : e.Attribute "name" = some n) (hos : e.Attribute "os-type" = some os)
    (hunrec : ¬ recognizedOS os) :
    ParseVersion env e (VersionInfo.new env.ctorBase) =
        Except.ok ((VersionInfo.new env.ctorBase).setVersion n) ∧
      ((VersionInfo.new env.ctorBase).setVersion n).md5_list = [] ∧
      ((VersionInfo.new env.ctorBase).setVersion n).PE_list = [] ∧
      ((VersionInfo.new env.ctorBase).setVersion n).Addresses = [] ∧
      ((VersionInfo.new env.ctorBase).setVersion n).VTables = [] ∧
      ∀ (self : VersionInfoFactory) (doc : TiXmlDocument) (root : TiXmlElement)
        (pre post : List TiXmlElement),
        doc.loadOkay = true → doc.FirstChildElement = some root →
        root.Value = "data-definition" → root.children = pre ++ e :: post →
        e.Value = "symbol-table" →
        (∀ x ∈ pre, isNamedSymbolTable x = true →
          ∃ r, ParseVersion env x (VersionInfo.new env.ctorBase) = Except.ok r) →
        (recordsOf env pre ++ [(VersionInfo.new env.ctorBase).setVersion n]) <+:
          (self.loadFile env doc).2.versions := by
  have hpv : ParseVersion env e (VersionInfo.new env.ctorBase) =
      Except.ok ((VersionInfo.new env.ctorBase).setVersion n) := by
    unfold ParseVersion
    simp only [hname, hos, (osOfString_eq_none_iff os).mpr hunrec]
  refine ⟨hpv, rfl, rfl, rfl, rfl, ?_⟩
  intro self doc root pre post hload hroot hval hchildren htag hpre
  have hloop : VersionInfoFactory.loadFile.loop env root.children [] =
      VersionInfoFactory.loadFile.loop env post
        (recordsOf env pre ++ [(VersionInfo.new env.ctorBase).setVersion n]) := by
    rw [hchildren, VersionInfoFactory.loadFile.loop_prefix env pre (e :: post) [] hpre,
      List.nil_append, VersionInfoFactory.loadFile.loop]
    simp only [htag, if_true, hname, hpv]
  have hext := VersionInfoFactory.loadFile.loop_extends env post
    (recordsOf env pre ++ [(VersionInfo.new env.ctorBase).setVersion n])
  rw [← hloop] at hext
  rw [VersionInfoFactory.loadFile_of_root env self doc root hload hroot hval]
  rcases hl : VersionInfoFactory.loadFile.loop env root.children [] with ⟨_ | f, vs⟩
  · rw [hl] at hext
    exact hext
  · rw [hl] at hext
    exact hext

/-- Witness for C8: `sampleTableAmiga` (`os-type="amiga"`, with an `md5-hash` child lacking
`value`) as the second entry of `sampleDocAmiga`, whose third entry makes the load fail. -/
theorem ParseVersion_unrecognized_os_witness :
    ParseVersion sampleEnv sampleTableAmiga (VersionInfo.new 0) =
        Except.ok ((VersionInfo.new 0).setVersion "v2") ∧
      (recordsOf sampleEnv [sampleTableV1] ++ [(VersionInfo.new 0).setVersion "v2"]) <+:
        (sampleRegistry.loadFile sampleEnv sampleDocAmiga).2.versions :=
  ⟨(ParseVersion_unrecognized_os sampleEnv sampleTableAmiga "v2" "amiga" rfl rfl
      (by decide)).1,
    (ParseVersion_unrecognized_os sampleEnv sampleTableAmiga "v2" "amiga" rfl rfl
      (by decide)).2.2.2.2.2 sampleRegistry sampleDocAmiga sampleRootAmiga
      [sampleTableV1] [sampleTableNoOS] rfl rfl rfl rfl rfl
      (fun x hx _ => by
        rw [List.mem_singleton] at hx
        subst hx
        exact ⟨_, rfl⟩)⟩

/-! ## Underspecified entries -/

/-- A loop iteration on an underspecified child throws `SymbolsXmlUnderspecifiedEntry` with
the record's name, whatever the toggles. -/
theorem ParseVersion.entry_underspecified (env : Env) (cstr_name : String) (mem : VersionInfo)
    (c : TiXmlElement) (h : isUnderspecified c = true) :
    ParseVersion.entry env cstr_name mem c =
      Except.error (Fault.thrown (Error.SymbolsXmlUnderspecifiedEntry cstr_name)) := by
  unfold isUnderspecified isAddressEntry at h
  unfold ParseVersion.entry
  by_cases hv : c.Value = "vtable-address"
  · simp [hv] at h
    simp [hv, h]
  · by_cases hg : c.Value = "global-address"
    · simp [hg] at h
      simp [hg, h]
    · by_cases hm : c.Value = "md5-hash"
      · simp [hm] at h
        simp [hm, h]
      · by_cases ht : c.Value = "binary-timestamp"
        · simp [ht] at h
          simp [ht, h]
        · simp [hv, hg, hm, ht] at h

/-- A loop iteration on a child that is not underspecified, and that carries a literal value
or neither value nor mangled name when it is a named address entry, completes normally. -/
theorem ParseVersion.entry_ok_of_specified (env : Env) (cstr_name : String)
    (mem : VersionInfo) (c : TiXmlElement) (h : isUnderspecified c = false)
    (hcarve : isAddressEntry c = true → (c.Attribute "name").isSome = true →
      (c.Attribute "value").isSome = true ∨
        (c.Attribute "value" = none ∧ c.Attribute "mangled" = none)) :
    ∃ mem1, ParseVersion.entry env cstr_name mem c = Except.ok mem1 := by
  unfold isUnderspecified at h
  unfold isAddressEntry at h hcarve
  unfold ParseVersion.entry
  have haddr : ∀ n, c.Attribute "name" = some n →
      (c.Value = "vtable-address" ∨ c.Value = "global-address") →
      ∃ mem1, (if ((c.Attribute "value").isNone && (c.Attribute "mangled").isNone) = true then
          Except.ok mem
        else if ((c.Value == "vtable-address" && env.no_vtables) ||
            (!(c.Value == "vtable-address") && env.no_globals)) = true then Except.ok mem
        else
          match entryAddr env (some n) (c.Attribute "value") (c.Attribute "mangled") with
          | Except.error f => Except.error f
          | Except.ok addr =>
            if (c.Value == "vtable-address") = true then Except.ok (mem.setVTable n addr)
            else Except.ok (mem.setAddress n addr)) = Except.ok mem1 := by
    intro n hn htag
    have hc := hcarve (by simpa using htag) (by simp [hn])
    rcases hc with hval | ⟨hval, hman⟩
    · obtain ⟨v, hv⟩ := Option.isSome_iff_exists.mp hval
      simp only [hv, Option.isNone_some, Bool.false_and, Bool.false_eq_true, if_false,
        entryAddr, parseLiteral]
      split
      · exact ⟨_, rfl⟩
      · split
        · exact ⟨_, rfl⟩
        · exact ⟨_, rfl⟩
    · simp [hval, hman]
  by_cases hv : c.Value = "vtable-address"
  · cases hn : c.Attribute "name" with
    | none => simp [hv, hn] at h
    | some n =>
      have := haddr n hn (Or.inl hv)
      simpa [hv, hn] using this
  · by_cases hg : c.Value = "global-address"
    · cases hn : c.Attribute "name" with
      | none => simp [hg, hn] at h
      | some n =>
        have := haddr n hn (Or.inr hg)
        simpa [hg, hn] using this
    · by_cases hm : c.Value = "md5-hash"
      · cases hval : c.Attribute "value" with
        | none => simp [hm, hval] at h
        | some v => simp [hm, hval]
      · by_cases ht : c.Value = "binary-timestamp"
        · cases hval : c.Attribute "value" with
          | none => simp [ht, hval] at h
          | some v => simp [ht, hval]
        · simp [hv, hg, hm, ht]

/-- The loop over children whose named address entries carry a literal value or neither value
nor mangled name: it completes normally when no child is underspecified, and throws
`SymbolsXmlUnderspecifiedEntry` with the record's name when some child is. -/
theorem ParseVersion.loop_specified (env : Env) (cstr_name : String) :
    ∀ (cs : List TiXmlElement) (mem : VersionInfo),
      (∀ c ∈ cs, isAddressEntry c = true → (c.Attribute "name").isSome = true →
        (c.Attribute "value").isSome = true ∨
          (c.Attribute "value" = none ∧ c.Attribute "mangled" = none)) →
      ((∀ c ∈ cs, isUnderspecified c = false) ∧
          ∃ r, ParseVersion.loop env cstr_name mem cs = Except.ok r) ∨
        ((∃ c ∈ cs, isUnderspecified c = true) ∧
          ParseVersion.loop env cstr_name mem cs =
            Except.error (Fault.thrown (Error.SymbolsXmlUnderspecifiedEntry cstr_name))) := by
  intro cs
  induction cs with
  | nil =>
    intro mem _
    left
    exact ⟨fun c hc => (List.not_mem_nil c hc).elim, mem, rfl⟩
  | cons x cs ih =>
    intro mem hcarve
    cases hx : isUnderspecified x with
    | true =>
      right
      refine ⟨⟨x, List.mem_cons_self x cs, hx⟩, ?_⟩
      simp only [ParseVersion.loop,
        ParseVersion.entry_underspecified env cstr_name mem x hx]
    | false =>
      obtain ⟨mem1, hm⟩ := ParseVersion.entry_ok_of_specified env cstr_name mem x hx
        (hcarve x (List.mem_cons_self x cs))
      have hstep : ParseVersion.loop env cstr_name mem (x :: cs) =
          ParseVersion.loop env cstr_name mem1 cs := by
        simp only [ParseVersion.loop, hm]
      rcases ih mem1 (fun c hc => hcarve c (List.mem_cons_of_mem x hc)) with
        ⟨hall, r, hr⟩ | ⟨⟨c, hc, hcu⟩, herr⟩
      · left
        refine ⟨?_, r, hstep.trans hr⟩
        intro c hc
        rcases List.mem_cons.mp hc with hcx | hmem
        · rw [hcx]
          exact hx
        · exact hall c hmem
      · right
        exact ⟨⟨c, List.mem_cons_of_mem x hc, hcu⟩, hstep.trans herr⟩

/-- With a name and an `os-type` that maps to an OS tag, `ParseVersion` is the loop over the
children, run on the record with name, OS and base address set. -/
theorem ParseVersion_of_tag (env : Env) (e : TiXmlElement) (mem : VersionInfo)
    (n os : String) (tag : OSType) (hname : e.Attribute "name" = some n)
    (hos : e.Attribute "os-type" = some os) (htag : osOfString os = some tag) :
    ParseVersion env e mem =
      ParseVersion.loop env n (((mem.setVersion n).setOS tag).setBase env.DEFAULT_BASE_ADDR)
        e.children := by
  unfold ParseVersion
  simp only [hname, hos, htag]
  cases hc : e.children with
  | nil => rfl
  | cons c cs => rfl

/-- With a name and a recognized `os-type`, `ParseVersion` is the loop over the children,
run on the record with name, OS and base address set. -/
theorem ParseVersion_of_recognized (env : Env) (e : TiXmlElement) (mem : VersionInfo)
    (n os : String) (hname : e.Attribute "name" = some n)
    (hos : e.Attribute "os-type" = some os) (hrec : recognizedOS os) :
    ∃ tag, osOfString os = some tag ∧
      ParseVersion env e mem =
        ParseVersion.loop env n (((mem.setVersion n).setOS tag).setBase env.DEFAULT_BASE_ADDR)
          e.children := by
  cases htag : osOfString os with
  | none => exact absurd hrec ((osOfString_eq_none_iff os).mp htag)
  | some tag =>
    refine ⟨tag, rfl, ?_⟩
    unfold ParseVersion
    simp only [hname, hos, htag]
    cases hc : e.children with
    | nil => rfl
    | cons c cs => rfl

/-- C10. On a `symbol-table` element with a name and a recognized `os-type`, whose named
address entries carry a literal value or neither value nor mangled name, `ParseVersion` fails
if and only if some child is an `md5-hash` or `binary-timestamp` without `value` or a
`global-address` / `vtable-address` without `name`; and whenever it fails, it throws
`SymbolsXmlUnderspecifiedEntry` carrying the record's name. -/
theorem ParseVersion_fails_iff_underspecified (env : Env) (e : TiXmlElement)
    (mem : VersionInfo) (n os : String) (hname : e.Attribute "name" = some n)
    (hos : e.Attribute "os-type" = some os) (hrec : recognizedOS os)
    (hcarve : ∀ c ∈ e.children, isAddressEntry c = true → (c.Attribute "name").isSome = true →
      (c.Attribute "value").isSome = true ∨
        (c.Attribute "value" = none ∧ c.Attribute "mangled" = none)) :
    ((∃ f, ParseVersion env e mem = Except.error f) ↔
        ∃ c ∈ e.children, isUnderspecified c = true) ∧
      (∀ f, ParseVersion env e mem = Except.error f →
        f = Fault.thrown (Error.SymbolsXmlUnderspecifiedEntry n)) ∧
      ((∀ c ∈ e.children, isUnderspecified c = false) →
        ∃ r, ParseVersion env e mem = Except.ok r) := by
  obtain ⟨tag, _, hpv⟩ := ParseVersion_of_recognized env e mem n os hname hos hrec
  rw [hpv]
  rcases ParseVersion.loop_specified env n e.children
      (((mem.setVersion n).setOS tag).setBase env.DEFAULT_BASE_ADDR) hcarve with
    ⟨hall, r, hr⟩ | ⟨hex, herr⟩
  · rw [hr]
    refine ⟨⟨?_, ?_⟩, ?_, fun _ => ⟨r, rfl⟩⟩
    · rintro ⟨f, hf⟩
      cases hf
    · rintro ⟨c, hc, hcu⟩
      rw [hall c hc] at hcu
      cases hcu
    · intro f hf
      cases hf
  · rw [herr]
    refine ⟨⟨fun _ => hex, fun _ => ⟨_, rfl⟩⟩, ?_, ?_⟩
    · intro f hf
      cases hf
      rfl
    · intro hall
      obtain ⟨c, hc, hcu⟩ := hex
      rw [hall c hc] at hcu
      cases hcu

/-- Witness for C10: in `sampleTableNoHashValue` the second child is an `md5-hash` without
`value`; the parser throws `SymbolsXmlUnderspecifiedEntry("v4")`. -/
theorem ParseVersion_fails_iff_underspecified_witness :
    (∃ c ∈ sampleTableNoHashValue.children, isUnderspecified c = true) ∧
      ParseVersion sampleEnv sampleTableNoHashValue (VersionInfo.new 0) =
        Except.error (Fault.thrown (Error.SymbolsXmlUnderspecifiedEntry "v4")) :=
  have h := ParseVersion_fails_iff_underspecified sampleEnv sampleTableNoHashValue
    (VersionInfo.new 0) "v4" "windows" rfl rfl (by decide) (by decide)
  have hex : ∃ c ∈ sampleTableNoHashValue.children, isUnderspecified c = true := by decide
  ⟨hex, by
    obtain ⟨f, hf⟩ := h.1.mpr hex
    rw [hf, h.2.1 f hf]⟩

/-! ## The vtable toggle -/

/-- With `DFHACK_NO_VTABLES` set, a loop iteration leaves the vtables map as it was. -/
theorem ParseVersion.entry_no_vtables (env : Env) (cstr_name : String)
    (mem mem1 : VersionInfo) (c : TiXmlElement) (hvt : env.no_vtables = true)
    (h : ParseVersion.entry env cstr_name mem c = Except.ok mem1) :
    mem1.VTables = mem.VTables := by
  rcases ParseVersion.entry_ok_cases env cstr_name mem mem1 c h with
    h1 | ⟨_, hoff, _⟩ | ⟨_, _, _, _, _, _, h1⟩ | ⟨_, _, _, h1⟩ | ⟨_, _, _, h1⟩
  · rw [h1]
  · rw [hvt] at hoff
    cases hoff
  · rw [h1]
    rfl
  · rw [h1]
    rfl
  · rw [h1]
    rfl

/-- With `DFHACK_NO_VTABLES` set, the loop over the children leaves the vtables map as it
was. -/
theorem ParseVersion.loop_no_vtables (env : Env) (cstr_name : String)
    (hvt : env.no_vtables = true) :
    ∀ (cs : List TiXmlElement) (mem r : VersionInfo),
      ParseVersion.loop env cstr_name mem cs = Except.ok r → r.VTables = mem.VTables := by
  intro cs
  induction cs with
  | nil =>
    intro mem r h
    simp only [ParseVersion.loop] at h
    cases h
    rfl
  | cons c cs ih =>
    intro mem r h
    simp only [ParseVersion.loop] at h
    cases hm : ParseVersion.entry env cstr_name mem c with
    | error f =>
      simp only [hm] at h
      cases h
    | ok mem1 =>
      simp only [hm] at h
      rw [ih mem1 r h]
      exact ParseVersion.entry_no_vtables env cstr_name mem mem1 c hvt hm

/-- Two loop iterations on the same child that differ only in the vtable toggle, started from
records with the same globals map and both completing normally, end with the same globals
map. -/
theorem ParseVersion.entry_toggle_Addresses (env : Env) (cstr_name : String)
    (mem mem1 memB memB1 : VersionInfo) (c : TiXmlElement) (b : Bool)
    (h : ParseVersion.entry env cstr_name mem c = Except.ok mem1)
    (hB : ParseVersion.entry { env with no_vtables := b } cstr_name memB c = Except.ok memB1)
    (hA : mem.Addresses = memB.Addresses) :
    mem1.Addresses = memB1.Addresses := by
  unfold ParseVersion.entry at h hB
  by_cases hv : c.Value = "vtable-address"
  · cases hn : c.Attribute "name" <;> cases hval : c.Attribute "value" <;>
      cases hman : c.Attribute "mangled" <;> cases hvt : env.no_vtables <;> cases b <;>
      simp [hv, hn, hval, hman, hvt, entryAddr, parseLiteral] at h hB <;>
      simp [← h, ← hB, hA, VersionInfo.setVTable]
  · by_cases hg : c.Value = "global-address"
    · cases hn : c.Attribute "name" <;> cases hval : c.Attribute "value" <;>
        cases hman : c.Attribute "mangled" <;> cases hgl : env.no_globals <;>
        simp [hg, hn, hval, hman, hgl, entryAddr, parseLiteral, literalAddr] at h hB <;>
        simp [← h, ← hB, hA, VersionInfo.setAddress]
    · by_cases hm : c.Value = "md5-hash"
      · cases hval : c.Attribute "value" <;> simp [hm, hval] at h hB
        simp [← h, ← hB, hA, VersionInfo.addMD5]
      · by_cases ht : c.Value = "binary-timestamp"
        · cases hval : c.Attribute "value" <;> simp [ht, hval] at h hB
          simp [← h, ← hB, hA, VersionInfo.addPE]
        · simp [hv, hg, hm, ht] at h hB
          simp [← h, ← hB, hA]

/-- Two runs of the loop that differ only in the vtable toggle, started from records with the
same globals map and both completing normally, end with the same globals map. -/
theorem ParseVersion.loop_toggle_Addresses (env : Env) (cstr_name : String) (b : Bool) :
    ∀ (cs : List TiXmlElement) (mem memB r rB : VersionInfo),
      ParseVersion.loop env cstr_name mem cs = Except.ok r →
      ParseVersion.loop { env with no_vtables := b } cstr_name memB cs = Except.ok rB →
      mem.Addresses = memB.Addresses → r.Addresses = rB.Addresses := by
  intro cs
  induction cs with
  | nil =>
    intro mem memB r rB h hB hA
    simp only [ParseVersion.loop] at h hB
    cases h
    cases hB
    exact hA
  | cons c cs ih =>
    intro mem memB r rB h hB hA
    simp only [ParseVersion.loop] at h hB
    cases hm : ParseVersion.entry env cstr_name mem c with
    | error f =>
      simp only [hm] at h
      cases h
    | ok mem1 =>
      cases hmB : ParseVersion.entry { env with no_vtables := b } cstr_name memB c with
      | error f =>
        simp only [hmB] at hB
        cases hB
      | ok memB1 =>
        simp only [hm] at h
        simp only [hmB] at hB
        exact ih mem1 memB1 r rB h hB
          (ParseVersion.entry_toggle_Addresses env cstr_name mem mem1 memB memB1 c b hm hmB hA)

/-- With `DFHACK_NO_VTABLES` set, a record `ParseVersion` returns has the vtables map of the
record it started from (empty for a new record), and its globals map is the one any normally
completing run with the toggle unset produces. -/
theorem ParseVersion_no_vtables_of_both_ok (env : Env) (e : TiXmlElement)
    (mem r : VersionInfo) (hvt : env.no_vtables = true)
    (h : ParseVersion env e mem = Except.ok r) :
    r.VTables = mem.VTables ∧
      ∀ r1, ParseVersion { env with no_vtables := false } e mem = Except.ok r1 →
        r.Addresses = r1.Addresses := by
  cases hn : e.Attribute "name" with
  | none =>
    unfold ParseVersion at h
    simp only [hn] at h
    cases h
  | some n =>
    cases hos : e.Attribute "os-type" with
    | none =>
      unfold ParseVersion at h
      simp only [hn, hos] at h
      cases h
    | some os =>
      cases htag : osOfString os with
      | none =>
        constructor
        · unfold ParseVersion at h
          simp only [hn, hos, htag] at h
          cases h
          rfl
        · intro r1 h1
          unfold ParseVersion at h h1
          simp only [hn, hos, htag] at h h1
          cases h
          cases h1
          rfl
      | some tag =>
        rw [ParseVersion_of_tag env e mem n os tag hn hos htag] at h
        constructor
        · rw [ParseVersion.loop_no_vtables env n hvt e.children _ r h]
          rfl
        · intro r1 h1
          rw [ParseVersion_of_tag _ e mem n os tag hn hos htag] at h1
          exact ParseVersion.loop_toggle_Addresses env n false e.children _ _ r r1 h h1 rfl

/-- C9 (evaluation at the failing input). On `sampleTableMangledVTable`, whose
`vtable-address` child carries a mangled name and no literal value, `ParseVersion` with
`DFHACK_NO_VTABLES` set returns a record with empty vtables and `globals = {foo: 0x1000}`,
while with the toggle unset it produces no record to compare with: the null `cstr_value`
reaches `strtoul`. -/
theorem ParseVersion_no_vtables_mangled_vtable :
    sampleEnvNoVTables.no_vtables = true ∧
      ParseVersion sampleEnvNoVTables sampleTableMangledVTable (VersionInfo.new 0) =
        Except.ok { version := "v1", OS := OSType.OS_LINUX, base := 4194304, md5_list := [],
                    PE_list := [], Addresses := [("foo", 0x1000)], VTables := [] } ∧
      ParseVersion { sampleEnvNoVTables with no_vtables := false } sampleTableMangledVTable
        (VersionInfo.new 0) = Except.error Fault.nullDeref := by
  exact ⟨rfl, rfl, rfl⟩

/-! ## Fingerprints -/

namespace VersionInfoFactory

/-- When every named `symbol-table` element parses, the records built are, position by
position, the records of the named `symbol-table` elements. -/
theorem recordsOf_forall₂ (env : Env) :
    ∀ (elems : List TiXmlElement),
      (∀ e ∈ elems, isNamedSymbolTable e = true →
        ∃ r, ParseVersion env e (VersionInfo.new env.ctorBase) = Except.ok r) →
      List.Forall₂ (fun e r => ParseVersion env e (VersionInfo.new env.ctorBase) = Except.ok r)
        (elems.filter isNamedSymbolTable) (recordsOf env elems) := by
  intro elems
  induction elems with
  | nil =>
    intro _
    exact List.Forall₂.nil
  | cons x elems ih =>
    intro hall
    have hrest := ih fun e he => hall e (List.mem_cons_of_mem x he)
    cases hnamed : isNamedSymbolTable x with
    | false =>
      have hrec : recordsOf env (x :: elems) = recordsOf env elems := by
        simp [recordsOf, hnamed]
      rw [hrec, List.filter_cons_of_neg (by simp [hnamed])]
      exact hrest
    | true =>
      obtain ⟨r, hr⟩ := hall x (List.mem_cons_self x elems) hnamed
      have hrec : recordsOf env (x :: elems) = r :: recordsOf env elems := by
        simp [recordsOf, hnamed, hr]
      rw [hrec, List.filter_cons_of_pos hnamed]
      exact List.Forall₂.cons hr hrest

end VersionInfoFactory

namespace VersionInfoFactory

end VersionInfoFactory

namespace VersionInfoFactory

end VersionInfoFactory

/-! ## The failure flag and `clear` -/

namespace VersionInfoFactory

/-- Once the root checks have passed, `loadFile` leaves the flag `error` false, whether it
returns or the record parser ends it with a fault. -/
theorem loadFile_error_false_of_root (env : Env) (self : VersionInfoFactory)
    (doc : TiXmlDocument) (root : TiXmlElement) (hload : doc.loadOkay = true)
    (hroot : doc.FirstChildElement = some root) (hval : root.Value = "data-definition") :
    (self.loadFile env doc).2.error = false := by
  rw [loadFile_of_root env self doc root hload hroot hval]
  rcases loadFile.loop env root.children [] with ⟨_ | f, vs⟩
  · rfl
  · rfl

/-- C12 (evaluation at the failing inputs). `loadFile` of `sampleDocNoOS` ends with
`SymbolsXmlBadAttribute("os-type")` and `loadFile` of `sampleDocUnderspecified` ends with
`SymbolsXmlUnderspecifiedEntry("v4")`, both thrown by the record parser; in both cases the
flag `error` is false after the call. -/
theorem loadFile_parser_error_leaves_flag_false :
    (sampleRegistry.loadFile sampleEnv sampleDocNoOS).1 =
        Except.error (Fault.thrown (Error.SymbolsXmlBadAttribute "os-type")) ∧
      (sampleRegistry.loadFile sampleEnv sampleDocNoOS).2.error = false ∧
      (sampleRegistry.loadFile sampleEnv sampleDocUnderspecified).1 =
        Except.error (Fault.thrown (Error.SymbolsXmlUnderspecifiedEntry "v4")) ∧
      (sampleRegistry.loadFile sampleEnv sampleDocUnderspecified).2.error = false :=
  ⟨rfl, rfl, rfl, rfl⟩

/-- C13 (counterexample). `loadFile` of `sampleDocBadRoot` fails with the document error
`SymbolsXmlNoRoot`, and the record the registry held before the call is still in it
afterwards: `clear()` has not run. -/
theorem loadFile_document_error_keeps_records :
    (sampleRegistry.loadFile sampleEnv sampleDocBadRoot).1 =
        Except.error (Fault.thrown Error.SymbolsXmlNoRoot) ∧
      ∃ r, r ∈ sampleRegistry.versions ∧
        r ∈ (sampleRegistry.loadFile sampleEnv sampleDocBadRoot).2.versions :=
  ⟨rfl, _, List.mem_cons_self _ _, List.mem_cons_self _ _⟩

/-- C17. When `loadFile` fails with a document error (the underlying parser failed, there is
no root element, or the root is not tagged `data-definition`), it throws `SymbolsXmlParse`
with the parser's diagnostic or `SymbolsXmlNoRoot`, the sequence of records is the one
before the call, and the flag `error` is true. -/
theorem loadFile_document_error_atomic (env : Env) (self : VersionInfoFactory)
    (doc : TiXmlDocument) (hdoc : isDocumentError doc) :
    ((self.loadFile env doc).1 = Except.error (Fault.thrown
          (Error.SymbolsXmlParse doc.ErrorDesc doc.ErrorId doc.ErrorRow doc.ErrorCol)) ∨
        (self.loadFile env doc).1 = Except.error (Fault.thrown Error.SymbolsXmlNoRoot)) ∧
      (self.loadFile env doc).2.versions = self.versions ∧
      (self.loadFile env doc).2.error = true := by
  cases hload : doc.loadOkay with
  | false =>
    have key : self.loadFile env doc =
        (Except.error (Fault.thrown
          (Error.SymbolsXmlParse doc.ErrorDesc doc.ErrorId doc.ErrorRow doc.ErrorCol)),
          { self with error := true }) := by
      unfold loadFile
      simp [hload]
    rw [key]
    exact ⟨Or.inl rfl, rfl, rfl⟩
  | true =>
    have hroot : ∀ root, doc.FirstChildElement = some root →
        root.Value ≠ "data-definition" := by
      rcases hdoc with h | h
      · rw [hload] at h
        cases h
      · exact h
    have key : self.loadFile env doc =
        (Except.error (Fault.thrown Error.SymbolsXmlNoRoot), { self with error := true }) := by
      unfold loadFile
      cases hfirst : doc.FirstChildElement with
      | none => simp [hload]
      | some root => simp [hload, hroot root hfirst]
    rw [key]
    exact ⟨Or.inr rfl, rfl, rfl⟩

/-- Witness for C17: `sampleDocUnparsed`, which the underlying parser rejects, loaded over
`sampleRegistry`. -/
theorem loadFile_document_error_atomic_witness :
    isDocumentError sampleDocUnparsed ∧
      (sampleRegistry.loadFile sampleEnv sampleDocUnparsed).2.versions =
        sampleRegistry.versions ∧
      (sampleRegistry.loadFile sampleEnv sampleDocUnparsed).2.error = true :=
  ⟨Or.inl rfl,
    (loadFile_document_error_atomic sampleEnv sampleRegistry sampleDocUnparsed
      (Or.inl rfl)).2⟩

end VersionInfoFactory

/-! ## Faults of the record parser -/

/-- A loop iteration can only end in `SymbolsXmlUnderspecifiedEntry` with the record's name or
in the null `strtoul`. -/
theorem ParseVersion.entry_error_cases (env : Env) (cstr_name : String) (mem : VersionInfo)
    (c : TiXmlElement) (f : Fault)
    (h : ParseVersion.entry env cstr_name mem c = Except.error f) :
    f = Fault.thrown (Error.SymbolsXmlUnderspecifiedEntry cstr_name) ∨ f = Fault.nullDeref := by
  unfold ParseVersion.entry at h
  by_cases hv : c.Value = "vtable-address"
  · cases hn : c.Attribute "name" <;> cases hval : c.Attribute "value" <;>
      cases hman : c.Attribute "mangled" <;> cases hvt : env.no_vtables <;>
      simp [hv, hn, hval, hman, hvt, entryAddr, parseLiteral] at h <;>
      simp [← h]
  · by_cases hg : c.Value = "global-address"
    · cases hn : c.Attribute "name" <;> cases hval : c.Attribute "value" <;>
        cases hman : c.Attribute "mangled" <;> cases hgl : env.no_globals <;>
        simp [hg, hn, hval, hman, hgl, entryAddr, parseLiteral] at h <;>
        simp [← h]
    · by_cases hm : c.Value = "md5-hash"
      · cases hval : c.Attribute "value" <;> simp [hm, hval] at h
        simp [← h]
      · by_cases ht : c.Value = "binary-timestamp"
        · cases hval : c.Attribute "value" <;> simp [ht, hval] at h
          simp [← h]
        · simp [hv, hg, hm, ht] at h

/-- The loop over the children can only end in `SymbolsXmlUnderspecifiedEntry` with the
record's name or in the null `strtoul`. -/
theorem ParseVersion.loop_error_cases (env : Env) (cstr_name : String) :
    ∀ (cs : List TiXmlElement) (mem : VersionInfo) (f : Fault),
      ParseVersion.loop env cstr_name mem cs = Except.error f →
      f = Fault.thrown (Error.SymbolsXmlUnderspecifiedEntry cstr_name) ∨
        f = Fault.nullDeref := by
  intro cs
  induction cs with
  | nil =>
    intro mem f h
    simp only [ParseVersion.loop] at h
    cases h
  | cons c cs ih =>
    intro mem f h
    simp only [ParseVersion.loop] at h
    cases hm : ParseVersion.entry env cstr_name mem c with
    | error g =>
      simp only [hm] at h
      cases h
      exact ParseVersion.entry_error_cases env cstr_name mem c _ hm
    | ok mem1 =>
      simp only [hm] at h
      exact ih mem1 f h

/-- On an element that carries a `name`, `ParseVersion` does not throw the missing-attribute
error for `name`. -/
theorem ParseVersion_not_missing_name (env : Env) (e : TiXmlElement) (mem : VersionInfo)
    (n : String) (hname : e.Attribute "name" = some n) :
    ParseVersion env e mem ≠ Except.error (Fault.thrown (Error.SymbolsXmlBadAttribute "name")) := by
  intro h
  cases hos : e.Attribute "os-type" with
  | none =>
    unfold ParseVersion at h
    simp [hname, hos] at h
  | some os =>
    cases htag : osOfString os with
    | none =>
      unfold ParseVersion at h
      simp only [hname, hos, htag] at h
      cases h
    | some tag =>
      rw [ParseVersion_of_tag env e mem n os tag hname hos htag] at h
      rcases ParseVersion.loop_error_cases env n e.children _ _ h with h1 | h1
      · cases h1
      · cases h1

namespace VersionInfoFactory

/-- The loop of `loadFile` never ends with the missing-attribute error for `name`. -/
theorem loadFile.loop_not_missing_name (env : Env) :
    ∀ (elems : List TiXmlElement) (versions : List VersionInfo),
      (loadFile.loop env elems versions).1 ≠
        some (Fault.thrown (Error.SymbolsXmlBadAttribute "name")) := by
  intro elems
  induction elems with
  | nil =>
    intro versions h
    simp [loadFile.loop] at h
  | cons x elems ih =>
    intro versions
    rw [loadFile.loop]
    by_cases htag : x.Value = "symbol-table"
    · simp only [htag, if_true]
      cases hname : x.Attribute "name" with
      | none => exact ih versions
      | some n =>
        simp only
        cases hpv : ParseVersion env x (VersionInfo.new env.ctorBase) with
        | error f =>
          simp only
          intro h
          cases h
          exact ParseVersion_not_missing_name env x _ n hname hpv
        | ok r => exact ih _
    · simp only [htag, if_false]
      exact ih versions

/-- C18. `loadFile` never fails with the missing-attribute error for `name`; a `symbol-table`
child of the root without `name` is passed over before `ParseVersion` is called: the loop
goes on with the next child, no record added and no error raised. -/
theorem loadFile_never_missing_name (env : Env) (self : VersionInfoFactory)
    (doc : TiXmlDocument) :
    (self.loadFile env doc).1 ≠
        Except.error (Fault.thrown (Error.SymbolsXmlBadAttribute "name")) ∧
      ∀ (e : TiXmlElement) (rest : List TiXmlElement) (versions : List VersionInfo),
        e.Value = "symbol-table" → e.Attribute "name" = none →
        loadFile.loop env (e :: rest) versions = loadFile.loop env rest versions := by
  constructor
  · unfold loadFile
    by_cases hload : doc.loadOkay = false
    · simp only [hload, if_true]
      intro h
      cases h
    · simp only [hload, if_false]
      cases hroot : doc.FirstChildElement with
      | none =>
        simp only
        intro h
        cases h
      | some root =>
        simp only
        by_cases hval : root.Value = "data-definition"
        · simp only [hval, ne_eq, not_true_eq_false, if_false]
          have hl := loadFile.loop_not_missing_name env root.children self.clear.versions
          rcases hloop : loadFile.loop env root.children self.clear.versions with ⟨_ | f, vs⟩
          · simp only
            intro h
            cases h
          · simp only
            intro h
            cases h
            rw [hloop] at hl
            exact hl rfl
        · simp only [ne_eq, hval, not_false_eq_true, if_true]
          intro h
          cases h
  · intro e rest versions htag hname
    rw [loadFile.loop]
    simp only [htag, if_true, hname]

end VersionInfoFactory

/-! ## The base address -/

namespace VersionInfoFactory

end VersionInfoFactory

/-! ## Dummy entries -/

/-- A loop iteration on a dummy address entry leaves the record as it is and completes
normally, whatever the toggles. -/
theorem ParseVersion.entry_dummy (env : Env) (cstr_name : String) (mem : VersionInfo)
    (c : TiXmlElement) (h : isDummyEntry c = true) :
    ParseVersion.entry env cstr_name mem c = Except.ok mem := by
  unfold isDummyEntry isAddressEntry at h
  simp only [Bool.and_eq_true, Bool.or_eq_true, beq_iff_eq, Option.isSome_iff_exists,
    Option.isNone_iff_eq_none] at h
  obtain ⟨⟨⟨htag, n, hn⟩, hval⟩, hman⟩ := h
  unfold ParseVersion.entry
  rcases htag with hv | hg
  · simp [hv, hn, hval, hman]
  · simp [hg, hn, hval, hman]

/-- The loop over the children gives the same outcome with the dummy entries deleted. -/
theorem ParseVersion.loop_filter_dummy (env : Env) (cstr_name : String) :
    ∀ (cs : List TiXmlElement) (mem : VersionInfo),
      ParseVersion.loop env cstr_name mem (cs.filter fun c => !isDummyEntry c) =
        ParseVersion.loop env cstr_name mem cs := by
  intro cs
  induction cs with
  | nil =>
    intro mem
    rfl
  | cons c cs ih =>
    intro mem
    cases hd : isDummyEntry c with
    | true =>
      rw [List.filter_cons_of_neg (by simp [hd]), ih mem]
      simp only [ParseVersion.loop, ParseVersion.entry_dummy env cstr_name mem c hd]
    | false =>
      rw [List.filter_cons_of_pos (by simp [hd])]
      simp only [ParseVersion.loop]
      cases ParseVersion.entry env cstr_name mem c with
      | error f => rfl
      | ok mem1 => exact ih mem1

/-- C15. Deleting from a `symbol-table` element every address entry that has a name but
neither a value nor a mangled name changes nothing: `ParseVersion` ends the same way, with the
same fault or the same record (name, OS, base address, fingerprints, globals, vtables); and
after such an entry the loop goes on with the children that follow, from the unchanged
record. -/
theorem ParseVersion_removeDummyEntries (env : Env) (e : TiXmlElement) (mem : VersionInfo) :
    ParseVersion env (removeDummyEntries e) mem = ParseVersion env e mem ∧
      ∀ (cstr_name : String) (mem1 : VersionInfo) (c : TiXmlElement)
        (rest : List TiXmlElement), isDummyEntry c = true →
        ParseVersion.loop env cstr_name mem1 (c :: rest) =
          ParseVersion.loop env cstr_name mem1 rest := by
  constructor
  · have hattr : ∀ k, (removeDummyEntries e).Attribute k = e.Attribute k := fun _ => rfl
    have hchildren : (removeDummyEntries e).children =
        e.children.filter fun c => !isDummyEntry c := rfl
    cases hn : e.Attribute "name" with
    | none =>
      unfold ParseVersion
      simp only [hattr, hn]
    | some n =>
      cases hos : e.Attribute "os-type" with
      | none =>
        unfold ParseVersion
        simp only [hattr, hn, hos]
      | some os =>
        cases htag : osOfString os with
        | none =>
          unfold ParseVersion
          simp only [hattr, hn, hos, htag]
        | some tag =>
          rw [ParseVersion_of_tag env e mem n os tag hn hos htag,
            ParseVersion_of_tag env (removeDummyEntries e) mem n os tag
              ((hattr "name").trans hn) ((hattr "os-type").trans hos) htag,
            hchildren]
          exact ParseVersion.loop_filter_dummy env n e.children _
  · intro cstr_name mem1 c rest hd
    simp only [ParseVersion.loop, ParseVersion.entry_dummy env cstr_name mem1 c hd]

/-! ## Duplicate definitions -/

/-- Reading a map after an assignment: the assigned key gives the new address, every other
key what it gave before. -/
theorem mapFind_mapSet (m : List (String × Nat)) (key : String) (addr : Nat) (n : String) :
    mapFind (mapSet m key addr) n = if key = n then some addr else mapFind m n := by
  induction m with
  | nil => simp [mapSet, mapFind]
  | cons p m ih =>
    obtain ⟨k, a⟩ := p
    by_cases hk : k = key
    · subst hk
      by_cases hn : k = n
      · simp [mapSet, mapFind, hn]
      · simp [mapSet, mapFind, hn]
    · by_cases hn : k = n
      · subst hn
        have hne : ¬ key = k := fun h => hk h.symm
        simp [mapSet, mapFind, hk, hne]
      · simp [mapSet, mapFind, hk, hn, ih]

/-- The keys of a map after an assignment: unchanged when the key was present, the key
appended otherwise. -/
theorem mapSet_keys (m : List (String × Nat)) (key : String) (addr : Nat) :
    (mapSet m key addr).map Prod.fst =
      if key ∈ m.map Prod.fst then m.map Prod.fst else m.map Prod.fst ++ [key] := by
  induction m with
  | nil => simp [mapSet]
  | cons p m ih =>
    obtain ⟨k, a⟩ := p
    by_cases hk : k = key
    · subst hk
      simp [mapSet]
    · have hne : ¬ key = k := fun h => hk h.symm
      simp only [mapSet, hk, if_false, List.map_cons, List.mem_cons, hne, false_or, ih]
      split <;> rfl

/-- An assignment keeps the keys of a map distinct. -/
theorem mapSet_nodup (m : List (String × Nat)) (key : String) (addr : Nat)
    (h : (m.map Prod.fst).Nodup) : ((mapSet m key addr).map Prod.fst).Nodup := by
  rw [mapSet_keys]
  split
  · exact h
  · next hnot =>
    rw [List.nodup_append]
    refine ⟨h, List.nodup_singleton key, ?_⟩
    intro x hx hy
    rw [List.mem_singleton] at hy
    subst hy
    exact hnot hx

/-- A normally completed loop iteration keeps the keys of both maps distinct. -/
theorem ParseVersion.entry_nodup (env : Env) (cstr_name : String) (mem mem1 : VersionInfo)
    (c : TiXmlElement) (h : ParseVersion.entry env cstr_name mem c = Except.ok mem1)
    (hA : (mem.Addresses.map Prod.fst).Nodup) (hV : (mem.VTables.map Prod.fst).Nodup) :
    (mem1.Addresses.map Prod.fst).Nodup ∧ (mem1.VTables.map Prod.fst).Nodup := by
  rcases ParseVersion.entry_ok_cases env cstr_name mem mem1 c h with
    h | ⟨_, _, _, _, _, _, h⟩ | ⟨_, _, _, _, _, _, h⟩ | ⟨_, _, _, h⟩ | ⟨_, _, _, h⟩
  · rw [h]
    exact ⟨hA, hV⟩
  · rw [h]
    exact ⟨hA, mapSet_nodup _ _ _ hV⟩
  · rw [h]
    exact ⟨mapSet_nodup _ _ _ hA, hV⟩
  · rw [h]
    exact ⟨hA, hV⟩
  · rw [h]
    exact ⟨hA, hV⟩

/-- A normally completed loop iteration applies to each map the definition the child makes
in it, if any: the name defined reads as the new address, every other name as before. -/
theorem ParseVersion.entry_maps (env : Env) (cstr_name : String) (mem mem1 : VersionInfo)
    (c : TiXmlElement) (h : ParseVersion.entry env cstr_name mem c = Except.ok mem1)
    (n : String) :
    mapFind mem1.Addresses n =
        (globalDefinitions env [c]).foldl (fun acc p => if p.1 = n then some p.2 else acc)
          (mapFind mem.Addresses n) ∧
      mapFind mem1.VTables n =
        (vtableDefinitions env [c]).foldl (fun acc p => if p.1 = n then some p.2 else acc)
          (mapFind mem.VTables n) := by
  unfold ParseVersion.entry at h
  by_cases hv : c.Value = "vtable-address"
  · cases hn : c.Attribute "name" <;> cases hval : c.Attribute "value" <;>
      cases hman : c.Attribute "mangled" <;> cases hvt : env.no_vtables <;>
      simp [hv, hn, hval, hman, hvt, entryAddr, parseLiteral] at h <;>
      simp [← h, hv, hn, hval, hvt, globalDefinitions, vtableDefinitions, definitionsOf,
        VersionInfo.setVTable, mapFind_mapSet]
  · by_cases hg : c.Value = "global-address"
    · cases hn : c.Attribute "name" <;> cases hval : c.Attribute "value" <;>
        cases hman : c.Attribute "mangled" <;> cases hgl : env.no_globals <;>
        simp [hg, hn, hval, hman, hgl, entryAddr, parseLiteral] at h <;>
        simp [← h, hg, hn, hval, hgl, globalDefinitions, vtableDefinitions, definitionsOf,
          VersionInfo.setAddress, mapFind_mapSet]
    · by_cases hm : c.Value = "md5-hash"
      · cases hval : c.Attribute "value" <;> simp [hm, hval] at h
        simp [← h, hm, globalDefinitions, vtableDefinitions, definitionsOf,
          VersionInfo.addMD5]
      · by_cases ht : c.Value = "binary-timestamp"
        · cases hval : c.Attribute "value" <;> simp [ht, hval] at h
          simp [← h, ht, globalDefinitions, vtableDefinitions, definitionsOf,
            VersionInfo.addPE]
        · simp [hv, hg, hm, ht] at h
          simp [← h, hv, hg, globalDefinitions, vtableDefinitions, definitionsOf]

/-- The definitions of a list of children are those of its first child followed by those of
the rest. -/
theorem definitions_cons (env : Env) (c : TiXmlElement) (cs : List TiXmlElement) :
    globalDefinitions env (c :: cs) = globalDefinitions env [c] ++ globalDefinitions env cs ∧
      vtableDefinitions env (c :: cs) =
        vtableDefinitions env [c] ++ vtableDefinitions env cs := by
  have key : ∀ tag, definitionsOf env tag (c :: cs) =
      definitionsOf env tag [c] ++ definitionsOf env tag cs := by
    intro tag
    unfold definitionsOf
    rw [← List.filterMap_append]
    rfl
  unfold globalDefinitions vtableDefinitions
  constructor
  · cases env.no_globals with
    | true => rfl
    | false => exact key "global-address"
  · cases env.no_vtables with
    | true => rfl
    | false => exact key "vtable-address"

/-- A normally completed loop applies the definitions of the children in document order. -/
theorem ParseVersion.loop_maps (env : Env) (cstr_name : String) (n : String) :
    ∀ (cs : List TiXmlElement) (mem r : VersionInfo),
      ParseVersion.loop env cstr_name mem cs = Except.ok r →
      mapFind r.Addresses n =
          (globalDefinitions env cs).foldl (fun acc p => if p.1 = n then some p.2 else acc)
            (mapFind mem.Addresses n) ∧
        mapFind r.VTables n =
          (vtableDefinitions env cs).foldl (fun acc p => if p.1 = n then some p.2 else acc)
            (mapFind mem.VTables n) := by
  intro cs
  induction cs with
  | nil =>
    intro mem r h
    simp only [ParseVersion.loop] at h
    cases h
    constructor
    · unfold globalDefinitions definitionsOf
      cases env.no_globals <;> rfl
    · unfold vtableDefinitions definitionsOf
      cases env.no_vtables <;> rfl
  | cons c cs ih =>
    intro mem r h
    simp only [ParseVersion.loop] at h
    cases hm : ParseVersion.entry env cstr_name mem c with
    | error f =>
      simp only [hm] at h
      cases h
    | ok mem1 =>
      simp only [hm] at h
      obtain ⟨h1, h2⟩ := ParseVersion.entry_maps env cstr_name mem mem1 c hm n
      obtain ⟨h3, h4⟩ := ih mem1 r h
      obtain ⟨e1, e2⟩ := definitions_cons env c cs
      rw [e1, e2, List.foldl_append, List.foldl_append, ← h1, ← h2]
      exact ⟨h3, h4⟩

/-- A normally completed loop keeps the keys of both maps distinct. -/
theorem ParseVersion.loop_nodup (env : Env) (cstr_name : String) :
    ∀ (cs : List TiXmlElement) (mem r : VersionInfo),
      ParseVersion.loop env cstr_name mem cs = Except.ok r →
      (mem.Addresses.map Prod.fst).Nodup → (mem.VTables.map Prod.fst).Nodup →
      (r.Addresses.map Prod.fst).Nodup ∧ (r.VTables.map Prod.fst).Nodup := by
  intro cs
  induction cs with
  | nil =>
    intro mem r h hA hV
    simp only [ParseVersion.loop] at h
    cases h
    exact ⟨hA, hV⟩
  | cons c cs ih =>
    intro mem r h hA hV
    simp only [ParseVersion.loop] at h
    cases hm : ParseVersion.entry env cstr_name mem c with
    | error f =>
      simp only [hm] at h
      cases h
    | ok mem1 =>
      simp only [hm] at h
      obtain ⟨h1, h2⟩ := ParseVersion.entry_nodup env cstr_name mem mem1 c hm hA hV
      exact ih mem1 r h h1 h2

/-- A normally completed loop iteration on an address entry that is not a dummy: the entry
was suppressed by the toggle of its kind, or it carries a name and a literal value. -/
theorem ParseVersion.entry_ok_address (env : Env) (cstr_name : String)
    (mem mem1 : VersionInfo) (c : TiXmlElement)
    (h : ParseVersion.entry env cstr_name mem c = Except.ok mem1)
    (haddr : isAddressEntry c = true) (hd : isDummyEntry c = false) :
    ((c.Value = "vtable-address" ∧ env.no_vtables = true) ∨
        (c.Value = "global-address" ∧ env.no_globals = true)) ∨
      ((c.Attribute "name").isSome = true ∧ (c.Attribute "value").isSome = true) := by
  unfold ParseVersion.entry at h
  unfold isDummyEntry at hd
  rw [haddr] at hd
  unfold isAddressEntry at haddr
  by_cases hv : c.Value = "vtable-address"
  · cases hn : c.Attribute "name" <;> cases hval : c.Attribute "value" <;>
      cases hman : c.Attribute "mangled" <;> cases hvt : env.no_vtables <;>
      simp [hv, hn, hval, hman, hvt, entryAddr, parseLiteral] at h hd ⊢
  · by_cases hg : c.Value = "global-address"
    · cases hn : c.Attribute "name" <;> cases hval : c.Attribute "value" <;>
        cases hman : c.Attribute "mangled" <;> cases hgl : env.no_globals <;>
        simp [hg, hn, hval, hman, hgl, entryAddr, parseLiteral] at h hd ⊢
    · simp [hv, hg] at haddr

/-- After a normally completed loop, every address entry among the children that is not a
dummy was suppressed by the toggle of its kind or carries a name and a literal value. -/
theorem ParseVersion.loop_ok_address (env : Env) (cstr_name : String) :
    ∀ (cs : List TiXmlElement) (mem r : VersionInfo),
      ParseVersion.loop env cstr_name mem cs = Except.ok r →
      ∀ c ∈ cs, isAddressEntry c = true → isDummyEntry c = false →
        ((c.Value = "vtable-address" ∧ env.no_vtables = true) ∨
            (c.Value = "global-address" ∧ env.no_globals = true)) ∨
          ((c.Attribute "name").isSome = true ∧ (c.Attribute "value").isSome = true) := by
  intro cs
  induction cs with
  | nil =>
    intro mem r _ c hc
    cases hc
  | cons x cs ih =>
    intro mem r h c hc haddr hd
    simp only [ParseVersion.loop] at h
    cases hm : ParseVersion.entry env cstr_name mem x with
    | error f =>
      simp only [hm] at h
      cases h
    | ok mem1 =>
      simp only [hm] at h
      rcases List.mem_cons.mp hc with hcx | hmem
      · subst hcx
        exact ParseVersion.entry_ok_address env cstr_name mem mem1 c hm haddr hd
      · exact ih mem1 r h c hmem haddr hd

/-- A name reads as some address exactly when it is a key of the map. -/
theorem mapFind_isSome_iff (m : List (String × Nat)) (n : String) :
    (mapFind m n).isSome = true ↔ n ∈ m.map Prod.fst := by
  induction m with
  | nil => simp [mapFind]
  | cons p m ih =>
    obtain ⟨k, a⟩ := p
    by_cases hk : k = n
    · simp [mapFind, hk]
    · have hne : ¬ n = k := fun h => hk h.symm
      simp [mapFind, hk, hne, ih]

/-- A name has a last definition exactly when some definition names it. -/
theorem lastDefinition_isSome_iff (n : String) :
    ∀ (defs : List (String × Nat)) (init : Option Nat),
      (defs.foldl (fun acc p => if p.1 = n then some p.2 else acc) init).isSome = true ↔
        (init.isSome = true ∨ n ∈ defs.map Prod.fst) := by
  intro defs
  induction defs with
  | nil =>
    intro init
    simp
  | cons p defs ih =>
    intro init
    obtain ⟨k, a⟩ := p
    rw [List.foldl_cons, ih]
    by_cases hk : k = n
    · simp [hk]
    · have hne : ¬ n = k := fun h => hk h.symm
      simp [hk, hne]

/-- C14. On a `symbol-table` element with recognized OS on which the parser succeeds, for
every name `n` the globals map gives `n` the address of the last `global-address` child named
`n` that was not skipped, in document order, and nothing when there is none; likewise the
vtables map for `vtable-address` children; each map holds one entry per distinct name
defined. The children not skipped are those that define something: after a successful parse
every address entry is a dummy, suppressed by its toggle, or carries a name and a literal
value. -/
theorem ParseVersion_last_definition_wins (env : Env) (e : TiXmlElement) (r : VersionInfo)
    (hrec : hasRecognizedOS e)
    (h : ParseVersion env e (VersionInfo.new env.ctorBase) = Except.ok r) :
    (∀ n, mapFind r.Addresses n = lastDefinition (globalDefinitions env e.children) n) ∧
      (∀ n, mapFind r.VTables n = lastDefinition (vtableDefinitions env e.children) n) ∧
      (r.Addresses.map Prod.fst).Nodup ∧ (r.VTables.map Prod.fst).Nodup ∧
      (∀ n, n ∈ r.Addresses.map Prod.fst ↔
        n ∈ (globalDefinitions env e.children).map Prod.fst) ∧
      (∀ n, n ∈ r.VTables.map Prod.fst ↔
        n ∈ (vtableDefinitions env e.children).map Prod.fst) ∧
      (∀ c ∈ e.children, isAddressEntry c = true → isDummyEntry c = false →
        ((c.Value = "vtable-address" ∧ env.no_vtables = true) ∨
            (c.Value = "global-address" ∧ env.no_globals = true)) ∨
          ((c.Attribute "name").isSome = true ∧ (c.Attribute "value").isSome = true)) := by
  obtain ⟨os, hos, hrecOS⟩ := hrec
  cases hn : e.Attribute "name" with
  | none =>
    unfold ParseVersion at h
    simp only [hn] at h
    cases h
  | some name =>
    cases htag : osOfString os with
    | none => exact absurd hrecOS ((osOfString_eq_none_iff os).mp htag)
    | some tag =>
      rw [ParseVersion_of_tag env e _ name os tag hn hos htag] at h
      have hA : ∀ n, mapFind r.Addresses n =
          lastDefinition (globalDefinitions env e.children) n := fun n =>
        (ParseVersion.loop_maps env name n e.children _ r h).1
      have hV : ∀ n, mapFind r.VTables n =
          lastDefinition (vtableDefinitions env e.children) n := fun n =>
        (ParseVersion.loop_maps env name n e.children _ r h).2
      obtain ⟨hnA, hnV⟩ := ParseVersion.loop_nodup env name e.children _ r h
        List.nodup_nil List.nodup_nil
      refine ⟨hA, hV, hnA, hnV, ?_, ?_, ParseVersion.loop_ok_address env name e.children _ r h⟩
      · intro n
        rw [← mapFind_isSome_iff, hA n]
        unfold lastDefinition
        rw [lastDefinition_isSome_iff]
        simp
      · intro n
        rw [← mapFind_isSome_iff, hV n]
        unfold lastDefinition
        rw [lastDefinition_isSome_iff]
        simp

/-- Witness for C14: `sampleTableDuplicates` defines the global `foo` as 0x1000 and later as
0x3000, and the vtable `bar` as 16 and later as 32; the record keeps the later addresses, one
entry per name. -/
theorem ParseVersion_last_definition_wins_witness :
    hasRecognizedOS sampleTableDuplicates ∧
      ParseVersion sampleEnv sampleTableDuplicates (VersionInfo.new sampleEnv.ctorBase) =
        Except.ok { version := "v5", OS := OSType.OS_APPLE, base := 4194304,
                    md5_list := ["abc"], PE_list := [], Addresses := [("foo", 0x3000)],
                    VTables := [("bar", 32)] } ∧
      lastDefinition (globalDefinitions sampleEnv sampleTableDuplicates.children) "foo" =
        some 0x3000 ∧
      mapFind [("foo", 0x3000)] "foo" =
        lastDefinition (globalDefinitions sampleEnv sampleTableDuplicates.children) "foo" ∧
      mapFind [("bar", 32)] "bar" =
        lastDefinition (vtableDefinitions sampleEnv sampleTableDuplicates.children) "bar" :=
  have hrec : hasRecognizedOS sampleTableDuplicates := ⟨"darwin", rfl, Or.inr (Or.inr rfl)⟩
  have key := ParseVersion_last_definition_wins sampleEnv sampleTableDuplicates
    { version := "v5", OS := OSType.OS_APPLE, base := 4194304, md5_list := ["abc"],
      PE_list := [], Addresses := [("foo", 0x3000)], VTables := [("bar", 32)] } hrec rfl
  ⟨hrec, rfl, by decide, key.1 "foo", key.2.1 "bar"⟩

/-! ## The toggles and the rest of the record -/

/-- One loop iteration under two settings of the toggles, from records that agree outside the
address maps: unless one of the two runs hands the null `cstr_value` to `strtoul`, both end
with the same fault or both complete with records that still agree outside the maps. -/
theorem ParseVersion.entry_toggles (env : Env) (a b : Bool) (cstr_name : String)
    (mem memB : VersionInfo) (c : TiXmlElement) (hcore : sameCore mem memB) :
    (ParseVersion.entry env cstr_name mem c = Except.error Fault.nullDeref ∨
        ParseVersion.entry { env with no_vtables := a, no_globals := b } cstr_name memB c =
          Except.error Fault.nullDeref) ∨
      (∃ f, ParseVersion.entry env cstr_name mem c = Except.error f ∧
        ParseVersion.entry { env with no_vtables := a, no_globals := b } cstr_name memB c =
          Except.error f) ∨
      (∃ m1 m1B, ParseVersion.entry env cstr_name mem c = Except.ok m1 ∧
        ParseVersion.entry { env with no_vtables := a, no_globals := b } cstr_name memB c =
          Except.ok m1B ∧ sameCore m1 m1B) := by
  obtain ⟨h1, h2, h3, h4, h5⟩ := hcore
  unfold ParseVersion.entry
  by_cases hv : c.Value = "vtable-address"
  · cases hn : c.Attribute "name" <;> cases hval : c.Attribute "value" <;>
      cases hman : c.Attribute "mangled" <;> cases hvt : env.no_vtables <;> cases a <;>
      simp [hv, hn, hval, hman, hvt, entryAddr, parseLiteral, sameCore, h1, h2, h3, h4, h5,
        VersionInfo.setVTable]
  · by_cases hg : c.Value = "global-address"
    · cases hn : c.Attribute "name" <;> cases hval : c.Attribute "value" <;>
        cases hman : c.Attribute "mangled" <;> cases hgl : env.no_globals <;> cases b <;>
        simp [hg, hn, hval, hman, hgl, entryAddr, parseLiteral, sameCore, h1, h2, h3, h4, h5,
          VersionInfo.setAddress]
    · by_cases hm : c.Value = "md5-hash"
      · cases hval : c.Attribute "value" <;>
          simp [hm, hval, sameCore, h1, h2, h3, h4, h5, VersionInfo.addMD5]
      · by_cases ht : c.Value = "binary-timestamp"
        · cases hval : c.Attribute "value" <;>
            simp [ht, hval, sameCore, h1, h2, h3, h4, h5, VersionInfo.addPE]
        · simp [hv, hg, hm, ht, sameCore, h1, h2, h3, h4, h5]

/-- The loop over the children under two settings of the toggles, from records that agree
outside the address maps: unless one of the two runs hands the null `cstr_value` to `strtoul`,
both end with the same fault or both complete with records that agree outside the maps. -/
theorem ParseVersion.loop_toggles (env : Env) (a b : Bool) (cstr_name : String) :
    ∀ (cs : List TiXmlElement) (mem memB : VersionInfo), sameCore mem memB →
      (ParseVersion.loop env cstr_name mem cs = Except.error Fault.nullDeref ∨
          ParseVersion.loop { env with no_vtables := a, no_globals := b } cstr_name memB cs =
            Except.error Fault.nullDeref) ∨
        (∃ f, ParseVersion.loop env cstr_name mem cs = Except.error f ∧
          ParseVersion.loop { env with no_vtables := a, no_globals := b } cstr_name memB cs =
            Except.error f) ∨
        (∃ r rB, ParseVersion.loop env cstr_name mem cs = Except.ok r ∧
          ParseVersion.loop { env with no_vtables := a, no_globals := b } cstr_name memB cs =
            Except.ok rB ∧ sameCore r rB) := by
  intro cs
  induction cs with
  | nil =>
    intro mem memB hcore
    exact Or.inr (Or.inr ⟨mem, memB, rfl, rfl, hcore⟩)
  | cons c cs ih =>
    intro mem memB hcore
    simp only [ParseVersion.loop]
    rcases ParseVersion.entry_toggles env a b cstr_name mem memB c hcore with
      (h | h) | ⟨f, h, hB⟩ | ⟨m1, m1B, h, hB, hc⟩
    · left
      left
      simp only [h]
    · left
      right
      simp only [h]
    · right
      left
      exact ⟨f, by simp only [h], by simp only [hB]⟩
    · simp only [h, hB]
      exact ih m1 m1B hc

/-- The toggles and the rest of the record: under two settings of the pair (suppress vtables,
suppress globals), unless one of the two runs hands the null `cstr_value` to `strtoul`,
`ParseVersion` fails with the same fault under both or succeeds under both with the same
name, OS, base address, hash set and timestamp set. -/
theorem ParseVersion_toggles_outside_null_strtoul (env : Env) (a b : Bool)
    (e : TiXmlElement) (mem : VersionInfo) :
    (ParseVersion env e mem = Except.error Fault.nullDeref ∨
        ParseVersion { env with no_vtables := a, no_globals := b } e mem =
          Except.error Fault.nullDeref) ∨
      (∃ f, ParseVersion env e mem = Except.error f ∧
        ParseVersion { env with no_vtables := a, no_globals := b } e mem = Except.error f) ∨
      (∃ r rB, ParseVersion env e mem = Except.ok r ∧
        ParseVersion { env with no_vtables := a, no_globals := b } e mem = Except.ok rB ∧
        sameCore r rB) := by
  cases hn : e.Attribute "name" with
  | none =>
    right
    left
    refine ⟨Fault.thrown (Error.SymbolsXmlBadAttribute "name"), ?_, ?_⟩
    · unfold ParseVersion
      simp only [hn]
    · unfold ParseVersion
      simp only [hn]
  | some n =>
    cases hos : e.Attribute "os-type" with
    | none =>
      right
      left
      refine ⟨Fault.thrown (Error.SymbolsXmlBadAttribute "os-type"), ?_, ?_⟩
      · unfold ParseVersion
        simp only [hn, hos]
      · unfold ParseVersion
        simp only [hn, hos]
    | some os =>
      cases htag : osOfString os with
      | none =>
        right
        right
        refine ⟨mem.setVersion n, mem.setVersion n, ?_, ?_, rfl, rfl, rfl, rfl, rfl⟩
        · unfold ParseVersion
          simp only [hn, hos, htag]
        · unfold ParseVersion
          simp only [hn, hos, htag]
      | some tag =>
        rw [ParseVersion_of_tag env e mem n os tag hn hos htag,
          ParseVersion_of_tag _ e mem n os tag hn hos htag]
        exact ParseVersion.loop_toggles env a b n e.children _ _ ⟨rfl, rfl, rfl, rfl, rfl⟩

/-- C19 (evaluation at the failing input). On `sampleTableMangled`, whose `global-address`
child carries a mangled name and no literal value, `ParseVersion` succeeds with
`DFHACK_NO_GLOBALS` set and, with both toggles unset, hands the null `cstr_value` to
`strtoul`: the two settings neither fail alike nor both succeed. -/
theorem ParseVersion_toggle_changes_outcome :
    ParseVersion sampleEnvNoGlobals sampleTableMangled (VersionInfo.new 0) =
        Except.ok { version := "v1", OS := OSType.OS_LINUX, base := 4194304, md5_list := [],
                    PE_list := [], Addresses := [], VTables := [] } ∧
      ParseVersion sampleEnv sampleTableMangled (VersionInfo.new 0) =
        Except.error Fault.nullDeref :=
  ⟨rfl, rfl⟩

/-! ## Timestamp values -/

/-- A successful lookup returns an entry of the table. -/
theorem mem_of_lookup {α β : Type} [BEq α] [LawfulBEq α] (a : α) (b : β) :
    ∀ (l : List (α × β)), l.lookup a = some b → (a, b) ∈ l := by
  intro l
  induction l with
  | nil =>
    intro h
    simp at h
  | cons p l ih =>
    intro h
    obtain ⟨k, v⟩ := p
    by_cases hk : a = k
    · subst hk
      simp only [List.lookup_cons, beq_self_eq_true, Option.some.injEq] at h
      subst h
      exact List.mem_cons_self _ _
    · have hne : (a == k) = false := by simpa using hk
      simp only [List.lookup_cons, hne] at h
      exact List.mem_cons_of_mem _ (ih h)

/-- Every entry of the table of digits agrees with the digit values of the C-library
model. -/
theorem digitTable_sound : ∀ p ∈ digitTable, digitVal p.1 = some p.2 ∧ p.2 < 16 := by
  decide

/-- The digit values of the C-library model agree with the spec's table of digits. -/
theorem specDigit_digitVal (c : Char) (d : Nat) (h : specDigit c = some d) :
    digitVal c = some d ∧ d < 16 :=
  digitTable_sound (c, d) (mem_of_lookup c d digitTable h)

/-- A string the spec reads as digits of a base consists of digits of that base for the
C-library model, and both give it the same positional value. -/
theorem specDigits_sound (base : Nat) :
    ∀ (cs : List Char) (ds : List Nat), specDigits base cs = some ds →
      (∀ c ∈ cs, isDigitOf base c = true) ∧
      ∀ acc, cs.foldl (fun a c => a * base + (digitVal c).getD 0) acc =
        ds.foldl (fun a d => a * base + d) acc := by
  intro cs
  induction cs with
  | nil =>
    intro ds h
    simp only [specDigits, Option.some.injEq] at h
    subst h
    exact ⟨fun c hc => (List.not_mem_nil c hc).elim, fun _ => rfl⟩
  | cons c cs ih =>
    intro ds h
    unfold specDigits at h
    cases hd : specDigit c with
    | none => simp [hd] at h
    | some d =>
      cases hrest : specDigits base cs with
      | none => simp [hd, hrest] at h
      | some l =>
        simp only [hd, hrest] at h
        by_cases hlt : d < base
        · simp only [hlt, if_true, Option.some.injEq] at h
          subst h
          obtain ⟨hall, hval⟩ := ih l hrest
          obtain ⟨hdv, _⟩ := specDigit_digitVal c d hd
          refine ⟨?_, ?_⟩
          · intro x hx
            rcases List.mem_cons.mp hx with hxc | hmem
            · subst hxc
              simp [isDigitOf, hdv, hlt]
            · exact hall x hmem
          · intro acc
            simp only [List.foldl_cons, hdv, Option.getD_some]
            exact hval _
        · simp [hlt] at h


/-- Characters with the same code are equal. -/
theorem char_eq_of_toNat (c k : Char) (h : c.toNat = k.toNat) : c = k := by
  rw [← Char.ofNat_toNat c, ← Char.ofNat_toNat k, h]

/-- The model's `isspace` accepts exactly the six white-space characters of the spec. -/
theorem isspace_eq_specWhite (c : Char) : isspace c = specWhite c := by
  unfold isspace specWhite
  by_cases h : c.toNat = 32 ∨ (9 ≤ c.toNat ∧ c.toNat ≤ 13)
  · have hmem : c ∈ [Char.ofNat 32, Char.ofNat 9, Char.ofNat 10, Char.ofNat 11,
        Char.ofNat 12, Char.ofNat 13] := by
      have h6 : c.toNat = 32 ∨ c.toNat = 9 ∨ c.toNat = 10 ∨ c.toNat = 11 ∨ c.toNat = 12 ∨
          c.toNat = 13 := by omega
      simp only [List.mem_cons, List.mem_singleton]
      rcases h6 with h | h | h | h | h | h
      · exact Or.inl (char_eq_of_toNat c (Char.ofNat 32) h)
      · exact Or.inr (Or.inl (char_eq_of_toNat c (Char.ofNat 9) h))
      · exact Or.inr (Or.inr (Or.inl (char_eq_of_toNat c (Char.ofNat 10) h)))
      · exact Or.inr (Or.inr (Or.inr (Or.inl (char_eq_of_toNat c (Char.ofNat 11) h))))
      · exact Or.inr (Or.inr (Or.inr (Or.inr (Or.inl (char_eq_of_toNat c (Char.ofNat 12) h)))))
      · exact Or.inr (Or.inr (Or.inr (Or.inr (Or.inr (Or.inl
          (char_eq_of_toNat c (Char.ofNat 13) h))))))
    rw [decide_eq_true hmem]
    rcases h with h | ⟨h1, h2⟩
    · simp [h]
    · simp [h1, h2]
  · have hnot : c ∉ [Char.ofNat 32, Char.ofNat 9, Char.ofNat 10, Char.ofNat 11,
        Char.ofNat 12, Char.ofNat 13] := by
      intro hmem
      apply h
      simp only [List.mem_cons, List.mem_singleton, List.not_mem_nil, or_false] at hmem
      rcases hmem with h | h | h | h | h | h <;> rw [h] <;> decide
    rw [decide_eq_false hnot]
    have h1 : ¬ c.toNat = 32 := fun hc => h (Or.inl hc)
    have h2 : ¬ (9 ≤ c.toNat ∧ c.toNat ≤ 13) := fun hc => h (Or.inr hc)
    simp only [h1, decide_False, Bool.false_or, Bool.and_eq_false_imp, decide_eq_true_eq,
      decide_eq_false_iff_not]
    omega

/-- The model's `skipSpace` drops exactly the leading white space. -/
theorem skipSpace_eq_dropWhile (cs : List Char) : skipSpace cs = cs.dropWhile specWhite := by
  induction cs with
  | nil => rfl
  | cons c cs ih =>
    simp only [skipSpace, List.dropWhile_cons, isspace_eq_specWhite, ih]


/-- The character codes of the digits of a base up to ten. -/
theorem isDigitOf_range10 (base : Nat) (c : Char) (hb : base ≤ 10)
    (h : isDigitOf base c = true) : 48 ≤ c.toNat ∧ c.toNat < 48 + base := by
  unfold isDigitOf digitVal at h
  by_cases h1 : 48 ≤ c.toNat ∧ c.toNat ≤ 57
  · simp [h1] at h
    omega
  · by_cases h2 : 97 ≤ c.toNat ∧ c.toNat ≤ 122
    · simp [h1, h2] at h
      omega
    · by_cases h3 : 65 ≤ c.toNat ∧ c.toNat ≤ 90
      · simp [h1, h2, h3] at h
        omega
      · simp [h1, h2, h3] at h

/-- Base detection on `0` followed by octal digits: base 8, nothing consumed. -/
theorem readBase_octal (rest : List Char) (hall : ∀ c ∈ rest, isDigitOf 8 c = true) :
    readBase 0 ('0' :: rest) = (8, '0' :: rest) := by
  cases rest with
  | nil => rfl
  | cons x rest =>
    cases rest with
    | nil => rfl
    | cons d rest =>
      have hx := isDigitOf_range10 8 x (by omega) (hall x (List.mem_cons_self x _))
      have hne : ¬ (x.toNat = 120 ∨ x.toNat = 88) := by omega
      simp [readBase, hne]

/-- On a numeral of the spec, the C-library model reads no sign, detects the numeral's base
and accumulates the value the numeral denotes. -/
theorem numeralOf_core (cs : List Char) (val : Nat) (h : numeralOf cs = some val) :
    readSign cs = (false, cs) ∧
      readDigits (readBase 0 cs).1 0 (readBase 0 cs).2 = val := by
  cases cs with
  | nil => simp [numeralOf] at h
  | cons c rest =>
    by_cases hc : c = '0'
    · subst hc
      refine ⟨rfl, ?_⟩
      have octal : ∀ l, specDigits 8 rest = some l → val = digitsValue 8 l →
          readDigits (readBase 0 ('0' :: rest)).1 0 (readBase 0 ('0' :: rest)).2 = val := by
        intro l hl hv
        obtain ⟨hall, hfold⟩ := specDigits_sound 8 rest l hl
        have hall0 : ∀ c ∈ '0' :: rest, isDigitOf 8 c = true := by
          intro c hcm
          rcases List.mem_cons.mp hcm with h0 | hm
          · rw [h0]
            rfl
          · exact hall c hm
        rw [readBase_octal rest hall, readDigits_of_all 8 ('0' :: rest) 0 hall0, hv]
        simp only [List.foldl_cons]
        have h00 : 0 * 8 + (digitVal '0').getD 0 = 0 := by decide
        rw [h00]
        exact hfold 0
      cases rest with
      | nil =>
        simp only [numeralOf, if_true] at h
        cases hl : specDigits 8 [] with
        | none => simp [hl] at h
        | some l =>
          simp only [hl, Option.map_some', Option.some.injEq] at h
          exact octal l hl h.symm
      | cons x rest2 =>
        cases rest2 with
        | nil =>
          simp only [numeralOf, if_true] at h
          cases hl : specDigits 8 [x] with
          | none => simp [hl] at h
          | some l =>
            simp only [hl, Option.map_some', Option.some.injEq] at h
            exact octal l hl h.symm
        | cons d ds =>
          simp only [numeralOf, if_true] at h
          by_cases hx : x = 'x' ∨ x = 'X'
          · simp only [hx, if_true] at h
            cases hl : specDigits 16 (d :: ds) with
            | none => simp [hl] at h
            | some l =>
              simp only [hl, Option.map_some', Option.some.injEq] at h
              obtain ⟨hall, hfold⟩ := specDigits_sound 16 (d :: ds) l hl
              have hd := hall d (List.mem_cons_self d ds)
              have hxn : x.toNat = 120 ∨ x.toNat = 88 := by
                rcases hx with hx | hx
                · rw [hx]
                  exact Or.inl rfl
                · rw [hx]
                  exact Or.inr rfl
              have hb : readBase 0 ('0' :: x :: d :: ds) = (16, d :: ds) := by
                simp [readBase, hxn, hd]
              rw [hb, readDigits_of_all 16 (d :: ds) 0 hall, ← h]
              exact hfold 0
          · simp only [hx, if_false] at h
            cases hl : specDigits 8 (x :: d :: ds) with
            | none => simp [hl] at h
            | some l =>
              simp only [hl, Option.map_some', Option.some.injEq] at h
              exact octal l hl h.symm
    · simp only [numeralOf, hc, if_false] at h
      cases hl : specDigits 10 (c :: rest) with
      | none => simp [hl] at h
      | some l =>
        simp only [hl, Option.map_some', Option.some.injEq] at h
        obtain ⟨hall, hfold⟩ := specDigits_sound 10 (c :: rest) l hl
        have hr := isDigitOf_range10 10 c (by omega) (hall c (List.mem_cons_self c rest))
        have h48 : ¬ c.toNat = 48 := fun h0 => hc (char_eq_of_toNat c '0' h0)
        have ha : ¬ c.toNat = 45 := by omega
        have hb : ¬ c.toNat = 43 := by omega
        have hbase : readBase 0 (c :: rest) = (10, c :: rest) := by
          simp [readBase, h48]
        refine ⟨by simp [readSign, ha, hb], ?_⟩
        rw [hbase, readDigits_of_all 10 (c :: rest) 0 hall, ← h]
        exact hfold 0


/-- On a literal of the spec (optional white space, optional plus sign, numeral) the C-library
model reads no minus sign and the value the literal denotes. -/
theorem strtoMagnitude_denoted (v : String) (val : Nat) (h : denotedValue v = some val) :
    strtoMagnitude v 0 = (false, val) := by
  unfold denotedValue at h
  unfold strtoMagnitude
  rw [skipSpace_eq_dropWhile]
  have htl : v.toList = v.data := rfl
  rw [htl] at h ⊢
  cases hdw : v.data.dropWhile specWhite with
  | nil => simp [hdw] at h
  | cons c cs =>
    simp only [hdw] at h
    by_cases hp : c = '+'
    · subst hp
      simp only [if_true] at h
      have hs : readSign ('+' :: cs) = (false, cs) := rfl
      simp only [hs, (numeralOf_core cs val h).2]
    · simp only [hp, if_false] at h
      obtain ⟨hs, hv⟩ := numeralOf_core (c :: cs) val h
      simp only [hs, hv]

/-- `strtoul` with base 0 returns the integer a literal denotes when it fits the type. -/
theorem strtoul_denoted (bits : Nat) (v : String) (val : Nat)
    (h : denotedValue v = some val) (hfit : val < 2 ^ bits) : strtoul bits v 0 = val := by
  unfold strtoul
  simp only [strtoMagnitude_denoted v val h]
  rw [if_neg (by omega)]
  simp

/-- `strtoul` on a magnitude out of range returns the maximum of the type, whatever the
sign. -/
theorem strtoul_saturates (bits : Nat) (v : String) (base : Nat)
    (h : 2 ^ bits ≤ (strtoMagnitude v base).2) : strtoul bits v base = 2 ^ bits - 1 := by
  unfold strtoul
  simp only [h, if_true]

/-- `strtoul` on a minus sign followed by a numeral that fits negates in the unsigned
type. -/
theorem strtoul_minus (bits : Nat) (cs : List Char) (val : Nat)
    (h : numeralOf cs = some val) (hfit : val < 2 ^ bits) :
    strtoul bits (String.mk ('-' :: cs)) 0 = (2 ^ bits - val) % 2 ^ bits := by
  have hmag : strtoMagnitude (String.mk ('-' :: cs)) 0 = (true, val) := by
    unfold strtoMagnitude
    have h1 : skipSpace (String.mk ('-' :: cs)).toList = '-' :: cs := rfl
    have h2 : readSign ('-' :: cs) = (true, cs) := rfl
    simp only [h1, h2, (numeralOf_core cs val h).2]
  unfold strtoul
  simp only [hmag]
  rw [if_neg (by omega)]
  simp

/-- The address stored for a literal is the integer the literal denotes, when that integer
fits `uintptr_t` and, where `strtoull` does the parsing, `unsigned long long`. -/
theorem literalAddr_denoted (env : Env) (v : String) (val : Nat)
    (h : denotedValue v = some val) (hfit : val < 2 ^ (8 * env.sizeofPtr))
    (h64 : env.sizeofPtr ≠ env.sizeofLong → val < 2 ^ 64) : literalAddr env v = val := by
  unfold literalAddr
  by_cases hsz : env.sizeofPtr = env.sizeofLong
  · rw [if_pos hsz, ← hsz]
    exact strtoul_denoted (8 * env.sizeofPtr) v val h hfit
  · rw [if_neg hsz, strtoul_denoted 64 v val h (h64 hsz)]
    exact Nat.mod_eq_of_lt hfit

/-- C6 (counterexample). The literal `0x10000000000000000` denotes 2 to the power 64, but a
`global-address` entry `name="foo"` carrying it, processed with both toggles unset in a
64-bit environment, leaves `globals["foo"]` equal to the maximum 64-bit value. -/
theorem ParseVersion_literal_out_of_range :
    denotedValue "0x10000000000000000" = some 18446744073709551616 ∧
      sampleGlobalHuge.Attribute "value" = some "0x10000000000000000" ∧
      ∃ mem1, ParseVersion.loop sampleEnv "v1" (VersionInfo.new 0) [sampleGlobalHuge] =
          Except.ok mem1 ∧
        mapFind mem1.Addresses "foo" = some 18446744073709551615 :=
  ⟨by decide, rfl, _, rfl, by decide⟩

/-- C6 (amended). With both toggles unset, a child address entry with name `n` and literal
value `v`, where `v` is a numeral with auto-detected base (optional white space and plus
sign, then `0x` or `0X` with hexadecimal digits, `0` with octal digits, or decimal digits)
whose value `val` fits `uintptr_t` (and `unsigned long long` where `strtoull` parses), is
processed without fault; tagged `global-address` it leaves `globals[n]` equal to `val`, the
unsigned integer `v` denotes, and `vtables` as it was; tagged `vtable-address` it leaves
`vtables[n]` equal to `val` and `globals` as it was. Here `mem` is the record when the loop
reaches the child `c`, after the children `pre`. -/
theorem ParseVersion_literal_address_denoted (env : Env) (cstr_name : String)
    (mem0 mem : VersionInfo) (pre : List TiXmlElement) (c : TiXmlElement) (n v : String)
    (val : Nat)
    (hvt : env.no_vtables = false) (hgl : env.no_globals = false)
    (hname : c.Attribute "name" = some n) (hvalue : c.Attribute "value" = some v)
    (hpre : ParseVersion.loop env cstr_name mem0 pre = Except.ok mem)
    (hden : denotedValue v = some val) (hfit : val < 2 ^ (8 * env.sizeofPtr))
    (h64 : env.sizeofPtr ≠ env.sizeofLong → val < 2 ^ 64) :
    (c.Value = "global-address" →
      ∃ mem1, ParseVersion.loop env cstr_name mem0 (pre ++ [c]) = Except.ok mem1 ∧
        mapFind mem1.Addresses n = some val ∧ mem1.VTables = mem.VTables) ∧
    (c.Value = "vtable-address" →
      ∃ mem1, ParseVersion.loop env cstr_name mem0 (pre ++ [c]) = Except.ok mem1 ∧
        mapFind mem1.VTables n = some val ∧ mem1.Addresses = mem.Addresses) := by
  obtain ⟨h1, h2⟩ := ParseVersion_literal_address env cstr_name mem0 mem pre c n v hvt hgl
    hname hvalue hpre
  have hlit : literalAddr env v = val := literalAddr_denoted env v val hden hfit h64
  rw [hlit] at h1 h2
  exact ⟨h1, h2⟩

/-- Witness for C6 (amended): the entry `name="foo" value="0x1000"` as the first child of a
record, once tagged `global-address` and once tagged `vtable-address`; the literal denotes
0x1000 and that is the address stored. -/
theorem ParseVersion_literal_address_denoted_witness :
    denotedValue "0x1000" = some 0x1000 ∧
    (∃ mem1, ParseVersion.loop sampleEnv "v1" (VersionInfo.new 0) ([] ++ [sampleGlobalFoo]) =
        Except.ok mem1 ∧
      mapFind mem1.Addresses "foo" = some 0x1000 ∧
      mem1.VTables = (VersionInfo.new 0).VTables) ∧
    (∃ mem1, ParseVersion.loop sampleEnv "v1" (VersionInfo.new 0) ([] ++ [sampleVTableFoo]) =
        Except.ok mem1 ∧
      mapFind mem1.VTables "foo" = some 0x1000 ∧
      mem1.Addresses = (VersionInfo.new 0).Addresses) :=
  ⟨by decide,
    (ParseVersion_literal_address_denoted sampleEnv "v1" (VersionInfo.new 0)
      (VersionInfo.new 0) [] sampleGlobalFoo "foo" "0x1000" 0x1000 rfl rfl rfl rfl rfl
      (by decide) (by decide) (fun h => absurd rfl h)).1 rfl,
    (ParseVersion_literal_address_denoted sampleEnv "v1" (VersionInfo.new 0)
      (VersionInfo.new 0) [] sampleVTableFoo "foo" "0x1000" 0x1000 rfl rfl rfl rfl rfl
      (by decide) (by decide) (fun h => absurd rfl h)).2 rfl⟩

/-! ## Timestamps read as hexadecimal integers -/

namespace VersionInfoFactory

end VersionInfoFactory

/-! ## Where `clear` runs -/

namespace VersionInfoFactory

/-- The loop of `loadFile` exactly: it runs through the elements up to the first named
`symbol-table` on which `ParseVersion` ends with a fault, appending one record per named
`symbol-table` on the way, and is left with that fault; without such an element it runs
through all of them. -/
theorem loadFile.loop_exact (env : Env) :
    ∀ (elems : List TiXmlElement) (versions : List VersionInfo),
      ∃ pre post, elems = pre ++ post ∧
        (∀ e ∈ pre, isNamedSymbolTable e = true →
          ∃ r, ParseVersion env e (VersionInfo.new env.ctorBase) = Except.ok r) ∧
        ((post = [] ∧
            loadFile.loop env elems versions = (none, versions ++ recordsOf env pre)) ∨
          ∃ bad rest f, post = bad :: rest ∧ isNamedSymbolTable bad = true ∧
            ParseVersion env bad (VersionInfo.new env.ctorBase) = Except.error f ∧
            loadFile.loop env elems versions = (some f, versions ++ recordsOf env pre)) := by
  intro elems
  induction elems with
  | nil =>
    intro versions
    refine ⟨[], [], rfl, fun e he => (List.not_mem_nil e he).elim, Or.inl ⟨rfl, ?_⟩⟩
    simp [loadFile.loop, recordsOf]
  | cons x elems ih =>
    intro versions
    cases hpv : ParseVersion env x (VersionInfo.new env.ctorBase) with
    | error f =>
      cases hnamed : isNamedSymbolTable x with
      | true =>
        have hn := hnamed
        simp only [isNamedSymbolTable, Bool.and_eq_true, decide_eq_true_eq,
          Option.isSome_iff_exists] at hn
        obtain ⟨htag, n, hname⟩ := hn
        refine ⟨[], x :: elems, rfl, fun e he => (List.not_mem_nil e he).elim,
          Or.inr ⟨x, elems, f, rfl, hnamed, hpv, ?_⟩⟩
        rw [loadFile.loop]
        simp [htag, hname, hpv, recordsOf]
      | false =>
        obtain ⟨pre, post, hsplit, hall, hcase⟩ := ih versions
        have hskip : ∀ e ∈ [x], isNamedSymbolTable e = true →
            ∃ r, ParseVersion env e (VersionInfo.new env.ctorBase) = Except.ok r := by
          intro e he hne
          rw [List.mem_singleton] at he
          subst he
          rw [hnamed] at hne
          cases hne
        have hstep : loadFile.loop env (x :: elems) versions =
            loadFile.loop env elems versions := by
          have h := loadFile.loop_prefix env [x] elems versions hskip
          have hrec : recordsOf env [x] = [] := by
            simp [recordsOf, hnamed]
          rw [hrec, List.append_nil] at h
          exact h
        have hrec : recordsOf env (x :: pre) = recordsOf env pre := by
          simp [recordsOf, hnamed]
        refine ⟨x :: pre, post, by rw [hsplit]; rfl, ?_, ?_⟩
        · intro e he hne
          rcases List.mem_cons.mp he with hex | hmem
          · subst hex
            rw [hnamed] at hne
            cases hne
          · exact hall e hmem hne
        · rw [hstep, hrec]
          exact hcase
    | ok r =>
      cases hnamed : isNamedSymbolTable x with
      | true =>
        obtain ⟨pre, post, hsplit, hall, hcase⟩ := ih (versions ++ [r])
        have hone : ∀ e ∈ [x], isNamedSymbolTable e = true →
            ∃ r, ParseVersion env e (VersionInfo.new env.ctorBase) = Except.ok r := by
          intro e he _
          rw [List.mem_singleton] at he
          subst he
          exact ⟨r, hpv⟩
        have hstep : loadFile.loop env (x :: elems) versions =
            loadFile.loop env elems (versions ++ [r]) := by
          have h := loadFile.loop_prefix env [x] elems versions hone
          have hrec : recordsOf env [x] = [r] := by
            simp [recordsOf, hnamed, hpv]
          rw [hrec] at h
          exact h
        have hrec : versions ++ recordsOf env (x :: pre) =
            (versions ++ [r]) ++ recordsOf env pre := by
          have h1 : recordsOf env (x :: pre) = r :: recordsOf env pre := by
            simp [recordsOf, hnamed, hpv]
          rw [h1, List.append_assoc]
          rfl
        refine ⟨x :: pre, post, by rw [hsplit]; rfl, ?_, ?_⟩
        · intro e he hne
          rcases List.mem_cons.mp he with hex | hmem
          · subst hex
            exact ⟨r, hpv⟩
          · exact hall e hmem hne
        · rw [hstep, hrec]
          exact hcase
      | false =>
        obtain ⟨pre, post, hsplit, hall, hcase⟩ := ih versions
        have hskip : ∀ e ∈ [x], isNamedSymbolTable e = true →
            ∃ r, ParseVersion env e (VersionInfo.new env.ctorBase) = Except.ok r := by
          intro e he hne
          rw [List.mem_singleton] at he
          subst he
          rw [hnamed] at hne
          cases hne
        have hstep : loadFile.loop env (x :: elems) versions =
            loadFile.loop env elems versions := by
          have h := loadFile.loop_prefix env [x] elems versions hskip
          have hrec : recordsOf env [x] = [] := by
            simp [recordsOf, hnamed]
          rw [hrec, List.append_nil] at h
          exact h
        have hrec : recordsOf env (x :: pre) = recordsOf env pre := by
          simp [recordsOf, hnamed]
        refine ⟨x :: pre, post, by rw [hsplit]; rfl, ?_, ?_⟩
        · intro e he hne
          rcases List.mem_cons.mp he with hex | hmem
          · subst hex
            rw [hnamed] at hne
            cases hne
          · exact hall e hmem hne
        · rw [hstep, hrec]
          exact hcase

/-- On a document error `loadFile` leaves the records as they were. -/
theorem loadFile_versions_of_document_error (env : Env) (self : VersionInfoFactory)
    (doc : TiXmlDocument) (hdoc : isDocumentError doc) :
    (self.loadFile env doc).2.versions = self.versions := by
  cases hload : doc.loadOkay with
  | false =>
    unfold loadFile
    simp [hload]
  | true =>
    have hroot : ∀ root, doc.FirstChildElement = some root →
        root.Value ≠ "data-definition" := by
      rcases hdoc with h | h
      · rw [hload] at h
        cases h
      · exact h
    unfold loadFile
    cases hfirst : doc.FirstChildElement with
    | none => simp [hload]
    | some root => simp [hload, hroot root hfirst]

/-- C13 (amended). `clear()` runs after the document has parsed and its root has been
checked, not as the first step of `loadFile`. For a document that parses and whose root is
`data-definition`, whether `loadFile` then succeeds or the record parser ends it, nothing of
the prior registry remains: the outcome is that of the same load into an empty registry, and
the registry holds exactly one record per named `symbol-table` child before the first child
on which `ParseVersion` fails (all of them when the load succeeds), each built by
`ParseVersion` from a new `VersionInfo`, in document order. On a document error the records
held before are kept. And `clear()` itself always leaves zero records and the flag false. -/
theorem loadFile_clears_after_root_checks (env : Env) (self : VersionInfoFactory)
    (doc : TiXmlDocument) :
    (∀ root, doc.loadOkay = true → doc.FirstChildElement = some root →
      root.Value = "data-definition" →
      self.loadFile env doc = init.loadFile env doc ∧
      ∃ pre post, root.children = pre ++ post ∧
        List.Forall₂
          (fun e r => ParseVersion env e (VersionInfo.new env.ctorBase) = Except.ok r)
          (pre.filter isNamedSymbolTable) (self.loadFile env doc).2.versions ∧
        ((post = [] ∧ (self.loadFile env doc).1 = Except.ok true) ∨
          ∃ bad rest f, post = bad :: rest ∧ isNamedSymbolTable bad = true ∧
            ParseVersion env bad (VersionInfo.new env.ctorBase) = Except.error f ∧
            (self.loadFile env doc).1 = Except.error f)) ∧
      (isDocumentError doc → (self.loadFile env doc).2.versions = self.versions) ∧
      self.clear.versions = [] ∧ self.clear.error = false := by
  refine ⟨?_, loadFile_versions_of_document_error env self doc, rfl, rfl⟩
  intro root hload hroot hval
  constructor
  · rw [loadFile_of_root env self doc root hload hroot hval,
      loadFile_of_root env init doc root hload hroot hval]
  · obtain ⟨pre, post, hsplit, hall, hcase⟩ := loadFile.loop_exact env root.children []
    have hF := recordsOf_forall₂ env pre hall
    refine ⟨pre, post, hsplit, ?_, ?_⟩
    · rw [loadFile_of_root env self doc root hload hroot hval]
      rcases hcase with ⟨_, hloop⟩ | ⟨bad, rest, f, _, _, _, hloop⟩
      · rw [hloop, List.nil_append]
        exact hF
      · rw [hloop, List.nil_append]
        exact hF
    · rw [loadFile_of_root env self doc root hload hroot hval]
      rcases hcase with ⟨hpost, hloop⟩ | ⟨bad, rest, f, hpost, hbad, hpv, hloop⟩
      · left
        rw [hloop]
        exact ⟨hpost, rfl⟩
      · right
        rw [hloop]
        exact ⟨bad, rest, f, hpost, hbad, hpv, rfl⟩

/-- Witness for C13 (amended): `sampleDocNoOS`, on which the record parser ends the load at
the second entry, and `sampleDocBadRoot`, a document error, both loaded over
`sampleRegistry`. -/
theorem loadFile_clears_after_root_checks_witness :
    (sampleRegistry.loadFile sampleEnv sampleDocNoOS =
        init.loadFile sampleEnv sampleDocNoOS ∧
      ∃ pre post, sampleRootNoOS.children = pre ++ post ∧
        List.Forall₂
          (fun e r =>
            ParseVersion sampleEnv e (VersionInfo.new sampleEnv.ctorBase) = Except.ok r)
          (pre.filter isNamedSymbolTable)
          (sampleRegistry.loadFile sampleEnv sampleDocNoOS).2.versions ∧
        ((post = [] ∧ (sampleRegistry.loadFile sampleEnv sampleDocNoOS).1 = Except.ok true) ∨
          ∃ bad rest f, post = bad :: rest ∧ isNamedSymbolTable bad = true ∧
            ParseVersion sampleEnv bad (VersionInfo.new sampleEnv.ctorBase) =
              Except.error f ∧
            (sampleRegistry.loadFile sampleEnv sampleDocNoOS).1 = Except.error f)) ∧
      (sampleRegistry.loadFile sampleEnv sampleDocNoOS).2.versions.map VersionInfo.version =
        ["v1"] ∧
      (sampleRegistry.loadFile sampleEnv sampleDocBadRoot).2.versions =
        sampleRegistry.versions :=
  ⟨(loadFile_clears_after_root_checks sampleEnv sampleRegistry sampleDocNoOS).1
      sampleRootNoOS rfl rfl rfl,
    rfl,
    (loadFile_clears_after_root_checks sampleEnv sampleRegistry sampleDocBadRoot).2.1
      (Or.inr (fun root h => by
        simp only [sampleDocBadRoot, docOf, TiXmlDocument.FirstChildElement, List.head?_cons,
          Option.some.injEq] at h
        subst h
        decide))⟩

end VersionInfoFactory

/-! ## The base address of loaded records -/

namespace VersionInfoFactory

end VersionInfoFactory

/-! ## The C-library model on further inputs -/

/-- Conversion to an unsigned type of `bits` bits is reduction modulo `2 ^ bits`. -/
theorem toUnsigned_spec (bits : Nat) (x : Int) :
    ((toUnsigned bits x : Nat) : Int) = x % (2 ^ bits : Int) := by
  unfold toUnsigned
  exact Int.toNat_of_nonneg (Int.emod_nonneg x (by positivity))

/-- `strtol` saturates at `LONG_MAX` on a magnitude out of range without minus sign. -/
theorem strtol_saturates_max (bits : Nat) (v : String) (base : Nat)
    (hsign : (strtoMagnitude v base).1 = false)
    (h : 2 ^ (bits - 1) ≤ (strtoMagnitude v base).2) :
    strtol bits v base = (2 ^ (bits - 1) : Int) - 1 := by
  unfold strtol
  simp only [hsign, Bool.false_eq_true, if_false, h, if_true]

/-- `strtol` saturates at `LONG_MIN` on a magnitude out of range with minus sign. -/
theorem strtol_saturates_min (bits : Nat) (v : String) (base : Nat)
    (hsign : (strtoMagnitude v base).1 = true)
    (h : 2 ^ (bits - 1) < (strtoMagnitude v base).2) :
    strtol bits v base = - (2 ^ (bits - 1) : Int) := by
  unfold strtol
  simp only [hsign, if_true, h]

/-- The C-library model on inputs outside the well-formed literals: text after the digits is
ignored, a string without digits reads as 0, white space is skipped, a minus sign negates in
the unsigned type, `strtol` keeps the sign and saturates, and the conversion to `uintptr_t`
wraps a negative value. -/
theorem strto_examples :
    strtoul 64 "12abc" 0 = 12 ∧ strtoul 64 "" 0 = 0 ∧ strtoul 64 "0x" 0 = 0 ∧
      strtoul 64 "xyz" 0 = 0 ∧ strtoul 64 " 0X1f" 0 = 31 ∧ strtoul 64 "017" 0 = 15 ∧
      strtoul 64 "08" 0 = 0 ∧ strtoul 32 "-1" 0 = 4294967295 ∧
      strtoul 32 "99999999999" 0 = 4294967295 ∧
      strtol 32 "4F00" 16 = 20224 ∧ strtol 32 "0x4f00" 16 = 20224 ∧
      strtol 32 "-ff" 16 = -255 ∧ strtol 32 "9A3B4C5E" 16 = 2147483647 ∧
      strtol 32 "-9A3B4C5E" 16 = -2147483648 ∧ toUnsigned 32 (-255) = 4294967041 ∧
      timestampOf sampleEnv32 "9A3B4C5E" = 2147483647 ∧
      timestampOf sampleEnv "9A3B4C5E" = 0x9A3B4C5E := by
  decide

end DFHack
